import Mathlib

/-!
Shallow embedding of the `IPA_SW` dynamic-watermarking pipeline
(`src/watermarking/`): keyed pseudorandom primitives (`crypto.py`),
difference-expansion bit embedding (`difference_expansion.py`), base
conversion (`base_convert.py`), the cyclic pointer watermark graph
(`graph.py`), the encoder orchestration (`encoder.py`) and the
controller (`controller.py`).

Modelling conventions:
* HMAC-SHA256 truncated to its first 8 bytes (a 64-bit unsigned value)
  is abstracted as an oracle `HmacModel`: `hm64 key msg` is the 64-bit
  value derived from key `key` and message `msg`, and `seedOf key` is
  the digest `prng_seed` derives from `key` (used only as the keyed
  permutation's key).  Every theorem quantifies over the oracle, hence
  over every key, exactly as the specification's "for every key".
* Python's unbounded `while` rejection-sampling loops receive an
  explicit `fuel` argument; running out of fuel produces a distinguished
  error that corresponds to the (probability-zero) event that the
  Python loop never accepts a draw.
* Python exceptions are modelled with `Except String`; the error
  strings follow the source texts.
* The mutable `Node` object graph of `graph.py` is modelled as an arena
  (`List GNode`) addressed by index; `is`-identity of nodes becomes
  index equality, and a node reference becomes an optional index.
* Python integers are `Int` (parameters) and `Nat` (digits, counters);
  `//` is `Int.fdiv` (floor division) and `%` on integers is `Int.emod`
  (non-negative remainder for positive modulus), as in Python.
-/

namespace IPA

/-- Abstract model of the keyed-hash primitive of `crypto.py`:
`hm64 key msg` models `int.from_bytes(hmac_sha256(key, msg)[:8], "big")`
and `seedOf key` models the digest `prng_seed(key)` (HMAC of the fixed
label `"PRNG|v1"`), which is only ever used as the key of the keyed
permutation's HMAC calls. -/
structure HmacModel where
  hm64 : String → String → Nat
  seedOf : String → String

/-- Model of `prng_seed` from `crypto.py`: derive deterministic seed
material from the secret key. -/
def prngSeed (O : HmacModel) (key : String) : String :=
  O.seedOf key

/-- Model of `keyed_bit` from `crypto.py`: the 64-bit truncated HMAC
value reduced mod 2. -/
def keyedBit (O : HmacModel) (key : String) (label : String) : Nat :=
  O.hm64 key label % 2

/-- Message built by `keyed_index` for pair index `p` and counter `c`
(the Python f-string `"KInd|v1—p—c"` with an em-dash separator). -/
def kIndLabel (p c : Nat) : String :=
  "KInd|v1" ++ "—" ++ toString p ++ "—" ++ toString c

/-- Rejection-sampling loop of `keyed_index`: draw 64-bit values until
one falls below the largest multiple of `eta` not exceeding `2^64`,
then reduce it mod `eta`.  `c` is the local counter, `fuel` bounds the
number of draws. -/
def keyedIndexAux (O : HmacModel) (key : String) (p eta : Nat) :
    Nat → Nat → Except String Nat
  | _, 0 => .error "keyed index rejection sampling ran out of fuel"
  | c, fuel + 1 =>
    let limit := 2 ^ 64 - (2 ^ 64 % eta)
    let r := O.hm64 key (kIndLabel p c)
    if r < limit then .ok (r % eta) else keyedIndexAux O key p eta (c + 1) fuel

/-- Model of `keyed_index` from `crypto.py`: uniform index in
`[0, eta)` obtained from the keyed hash by rejection sampling; raises
when `eta ≤ 0`. -/
def keyedIndex (O : HmacModel) (key : String) (p eta fuel : Nat) :
    Except String Nat :=
  if eta = 0 then .error "eta must be > 0"
  else keyedIndexAux O key p eta 0 fuel

/-- Label built by `keyed_permutation` for loop index `i` and running
counter `c` with the default context string `"KPerm|v1"`. -/
def kPermLabel (i c : Nat) : String :=
  "perm|" ++ "KPerm|v1" ++ "|i=" ++ toString i ++ "|c=" ++ toString c

/-- Swap of positions `i` and `j` of a list, reading both original
values first, as Python's `P[i], P[j] = P[j], P[i]` does. -/
def listSwap (l : List Nat) (i j : Nat) : List Nat :=
  (l.set i (l.getD j 0)).set j (l.getD i 0)

/-- Inner rejection-sampling loop of `keyed_permutation` at outer index
`i`: draw until the 64-bit value is below the largest multiple of
`m = i + 1` not exceeding `2^64`; return the accepted value mod `m`
together with the counter value after the accepted draw (the counter
threads across the whole run). -/
def kPermDraw (O : HmacModel) (seed : String) (i m : Nat) :
    Nat → Nat → Option (Nat × Nat)
  | _, 0 => none
  | c, fuel + 1 =>
    let L := 2 ^ 64 - (2 ^ 64 % m)
    let r := O.hm64 seed (kPermLabel i c)
    if r < L then some (r % m, c + 1) else kPermDraw O seed i m (c + 1) fuel

/-- Outer Fisher–Yates loop of `keyed_permutation`: `k` remaining
iterations starting at index `i`, with running counter `c` and current
list `P`. -/
def kPermLoop (O : HmacModel) (seed : String) (fuel : Nat) :
    Nat → Nat → Nat → List Nat → Option (List Nat)
  | 0, _, _, P => some P
  | k + 1, i, c, P =>
    match kPermDraw O seed i (i + 1) c fuel with
    | none => none
    | some (j, c') => kPermLoop O seed fuel k (i + 1) c' (listSwap P i j)

/-- Model of `keyed_permutation` from `crypto.py`: deterministic
Fisher–Yates shuffle of `[0, n)` driven by the keyed hash with
rejection sampling; `none` models a run in which some rejection loop
never accepts within `fuel` draws. -/
def keyedPermutation (O : HmacModel) (seed : String) (n fuel : Nat) :
    Option (List Nat) :=
  kPermLoop O seed fuel (n - 1) 0 0 (List.range n)

/-! Base conversion (`base_convert.py`). -/

/-- Little-endian digit accumulation loop of `int_to_digits`; the
second argument is fuel (`n` itself always suffices for `base ≥ 2`). -/
def digitsOfAux (base : Nat) : Nat → Nat → List Nat
  | _, 0 => []
  | n, fuel + 1 =>
    if n = 0 then [] else n % base :: digitsOfAux base (n / base) fuel

/-- Big-endian digit list of `n` in `base` as `int_to_digits` computes
it for `n ≥ 0` and `base ≥ 2`: `[0]` for `n = 0`, otherwise the
little-endian remainder list reversed. -/
def digitsBE (n base : Nat) : List Nat :=
  if n = 0 then [0] else (digitsOfAux base n n).reverse

/-- Model of `int_to_digits` from `base_convert.py`. -/
def intToDigits (n base : Nat) : Except String (List Nat) :=
  if base < 2 then .error "base must be >= 2"
  else .ok (digitsBE n base)

/-- Fold step of `digits_to_int`: range-check the digit, then
accumulate `acc * base + d`. -/
def digitsToIntLoop (base : Nat) : List Nat → Nat → Except String Nat
  | [], acc => .ok acc
  | d :: ds, acc =>
    if base ≤ d then
      .error ("digit " ++ toString d ++ " out of range for base " ++ toString base)
    else digitsToIntLoop base ds (acc * base + d)

/-- Model of `digits_to_int` from `base_convert.py`: big-endian digits
to integer, failing on an empty list or an out-of-range digit. -/
def digitsToInt (ds : List Nat) (base : Nat) : Except String Nat :=
  if base < 2 then .error "base must be >= 2"
  else if ds = [] then .error "digits must be non-empty"
  else digitsToIntLoop base ds 0

/-- Model of `bits_from_int` from `base_convert.py`: fixed-length
big-endian bit array, zero-padded on the left; fails when `n` needs
more than `eta` bits. -/
def bitsFromInt (n eta : Nat) : Except String (List Nat) :=
  if eta = 0 then .error "eta must be > 0"
  else
    match intToDigits n 2 with
    | .error e => .error e
    | .ok bits =>
      if eta < bits.length then .error "eta too small to represent n"
      else .ok (List.replicate (eta - bits.length) 0 ++ bits)

/-- Model of `base_convert_digits` from `base_convert.py`: round-trip
through the integer intermediate. -/
def baseConvertDigits (ds : List Nat) (baseFrom baseTo : Nat) :
    Except String (List Nat) :=
  match digitsToInt ds baseFrom with
  | .error e => .error e
  | .ok n => intToDigits n baseTo

/-! Difference expansion (`difference_expansion.py`). -/

/-- Floor division by two, Python's `n // 2`. -/
def fdiv2 (n : Int) : Int := Int.fdiv n 2

/-- Ceiling division by two via negation, Python's `-((-n) // 2)`. -/
def cdiv2 (n : Int) : Int := -(Int.fdiv (-n) 2)

/-- Result record of `embed_bit` (`EmbeddedPair` in the source). -/
structure EmbeddedPair where
  x_embedded : Int
  y_embedded : Int
deriving DecidableEq, Repr

/-- Model of `embed_bit`: embed `bit` into the pair `(x, y)` by
difference expansion; raises unless `bit` is 0 or 1. -/
def embedBit (x y : Int) (bit : Int) : Except String EmbeddedPair :=
  if bit ≠ 0 ∧ bit ≠ 1 then .error "bit must be 0 or 1"
  else
    let d := x - y
    let a := fdiv2 (x + y)
    let d2 := 2 * d + bit
    .ok ⟨a + cdiv2 d2, a - fdiv2 d2⟩

/-- Model of `extract_bit_and_restore`: recover the embedded bit and
the original pair from an embedded pair. -/
def extractBitAndRestore (x2 y2 : Int) : Int × (Int × Int) :=
  let d2 := x2 - y2
  let bit := Int.emod d2 2
  let d := fdiv2 d2
  let a := fdiv2 (x2 + y2)
  (bit, (a + cdiv2 d, a - fdiv2 d))

/-! Watermark graph (`graph.py`), modelled as an index arena. -/

/-- A graph node: optional `next` and `digit` references, stored as
indices into the arena. -/
structure GNode where
  next : Option Nat
  digit : Option Nat
deriving DecidableEq, Repr

/-- The node arena; a node reference is an index into this list. -/
abbrev Graph := List GNode

/-- Arena lookup; out-of-range indices behave as isolated nodes, which
never arise from references created by the source code. -/
def getNode (g : Graph) (i : Nat) : GNode :=
  g.getD i ⟨none, none⟩

/-- Node arena built by `encode_watermark` for the digit list `zeta6`
with `mu = zeta6.length`: node `r` has `next` pointing to the successor
`(r + 1) % mu` and, when its digit `d` is nonzero, `digit` pointing to
node `(r + d - 1) % mu`. -/
def encGraph (zeta6 : List Nat) : Graph :=
  (List.range zeta6.length).map fun r =>
    ⟨some ((r + 1) % zeta6.length),
     match zeta6.getD r 0 with
     | 0 => none
     | d => some ((r + d - 1) % zeta6.length)⟩

/-- Model of `encode_watermark`: build the ring arena and return it
with the head index 0.  Fails on an empty digit list. -/
def encodeWatermark (zeta6 : List Nat) : Except String (Graph × Nat) :=
  if zeta6.length = 0 then .error "ζ6 must be non-empty"
  else .ok (encGraph zeta6, 0)

/-- Ring materialisation loop of `decode_watermark`: follow `next`
from `cur` for `k` further steps, collecting the visited indices in
order; `none` models the "broken ring" failure. -/
def ringFrom (g : Graph) (cur : Nat) : Nat → Option (List Nat)
  | 0 => some [cur]
  | k + 1 =>
    match (getNode g cur).next with
    | none => none
    | some nxt =>
      match ringFrom g nxt k with
      | none => none
      | some rest => some (cur :: rest)

/-- Structural core of the digit-recovery walk of `decode_watermark`.
The loop increments `s` and aborts once `mu < s + 1`, so it runs at
most `mu + 1 - s` more iterations; that bound is passed as the last
(structurally decreasing) argument so the function computes by plain
recursion.  The fuel-exhaustion branch is unreachable whenever the
fuel is at least `mu + 1 - s`, which `walkDigit` ensures. -/
def walkGo (g : Graph) (mu target : Nat) : Nat → Nat → Nat → Except String Nat
  | probe, s, fuel =>
    if probe = target then .ok s
    else
      match (getNode g probe).next with
      | none => .error "invalid structure (broken ring)"
      | some q =>
        if mu < s + 1 then .error "invalid structure (unreachable digit)"
        else
          match fuel with
          | 0 => .error "invalid structure (unreachable digit)"
          | fuel + 1 => walkGo g mu target q (s + 1) fuel

/-- Digit-recovery walk of `decode_watermark`: starting from `probe`
with step count `s`, follow `next` until reaching `target`; a missing
`next` is a broken ring and more than `mu` steps an unreachable
digit. -/
def walkDigit (g : Graph) (mu target : Nat) (probe s : Nat) :
    Except String Nat :=
  walkGo g mu target probe s (mu + 1 - s)

/-- First-error left-to-right effectful map, mirroring a Python `for`
loop whose body may raise. -/
def mapE (f : α → Except String β) : List α → Except String (List β)
  | [] => .ok []
  | x :: xs =>
    match f x with
    | .error e => .error e
    | .ok y =>
      match mapE f xs with
      | .error e => .error e
      | .ok ys => .ok (y :: ys)

/-- Model of `decode_watermark`: materialise the ring of `mu` nodes
from the assumed head, then recover each digit (0 when the `digit`
reference is absent, otherwise one more than the walk length to its
target). -/
def decodeWatermark (g : Graph) (head mu : Nat) : Except String (List Nat) :=
  if mu = 0 then .error "mu must be > 0"
  else
    match ringFrom g head (mu - 1) with
    | none => .error "invalid structure (broken ring)"
    | some ring =>
      mapE (fun nr =>
        match (getNode g nr).digit with
        | none => .ok 0
        | some t =>
          match walkDigit g mu t nr 0 with
          | .error e => .error e
          | .ok s => .ok (s + 1)) ring

/-! Controller (`controller.py`). -/

/-- Model of the `VerificationResult` dataclass. -/
structure VerificationResult where
  is_authentic : Bool
  recovered_zeta : Option Nat
  recovered_zeta6 : Option (List Nat)
  error : Option String
deriving DecidableEq, Repr

/-- The body of `controller_verify`'s `try` block: decode the graph
and convert the decoded base-6 digits to an integer. -/
def tryDecode (g : Graph) (head mu : Nat) : Except String (List Nat × Nat) :=
  match decodeWatermark g head mu with
  | .error e => .error e
  | .ok z6 =>
    match digitsToInt z6 6 with
    | .error e => .error e
    | .ok n => .ok (z6, n)

/-- Model of `controller_verify`: fail fast on a negative expected
code; otherwise derive `mu` from the expected code's base-6 digit
length, decode and convert inside a `try` whose failure becomes a
non-authentic result carrying the error text. -/
def controllerVerify (g : Graph) (head : Nat) (expected : Int) :
    Except String VerificationResult :=
  if expected < 0 then .error "expected_zeta must be non-negative"
  else
    match intToDigits expected.toNat 6 with
    | .error e => .error e
    | .ok expected6 =>
      let mu := expected6.length
      match tryDecode g head mu with
      | .error e => .ok ⟨false, none, none, some e⟩
      | .ok (z6, n) => .ok ⟨decide ((n : Int) = expected), some n, some z6, none⟩

/-! Encoder (`encoder.py`). -/

/-- Output record of `prepare_parameters` (`PreparedInput`). -/
structure PreparedInput where
  watermarked_params : List Int
  permutation : List Nat
  eta : Nat
deriving DecidableEq, Repr

/-- Output record of `build_watermark_graph` (`AuthenticationBuild`);
the Python head node reference becomes the arena plus a head index. -/
structure AuthenticationBuild where
  graph : Graph
  graph_head : Nat
  permutation : List Nat
  eta : Nat
deriving DecidableEq, Repr

/-- Model of `_compute_permutation`: validate the pair count, build
the keyed permutation of the pair indices, and check that the keyed
index images of all pairs cover at least `eta` distinct positions. -/
def computePermutation (O : HmacModel) (key : String) (paramsLen eta fuel : Nat) :
    Except String (List Nat) :=
  if paramsLen < 2 then .error "Need at least 2 parameters (one pair)."
  else if paramsLen / 2 < eta then
    .error ("Not enough parameter pairs to support eta=" ++ toString eta ++
      ": need at least " ++ toString eta ++ " pairs, got " ++
      toString (paramsLen / 2) ++
      ". Increase the number of input integers or reduce eta.")
  else
    match keyedPermutation O (prngSeed O key) (paramsLen / 2) fuel with
    | none => .error "keyed permutation rejection sampling ran out of fuel"
    | some P =>
      match mapE (fun p => keyedIndex O key p eta fuel) P with
      | .error e => .error e
      | .ok js =>
        if js.dedup.length < eta then
          .error ("Insufficient KEYED_INDEX coverage: only " ++
            toString js.dedup.length ++ "/" ++ toString eta ++
            " bit positions receive votes. Increase the number of input " ++
            "integers (more pairs) or reduce eta.")
        else .ok P

/-- Per-pair body of `hints_detection`: write the parity of the pair
difference (Python's non-negative `%`) into the hint vector. -/
def hdLoop (I : List Int) : List Nat → List Nat → List Nat
  | [], gamma => gamma
  | p :: ps, gamma =>
    hdLoop I ps (gamma.set p ((Int.emod (I.getD (2 * p) 0 - I.getD (2 * p + 1) 0) 2).toNat))

/-- Model of `hints_detection`: hint vector `Γ` over all pair indices,
written in permutation order. -/
def hintsDetection (I : List Int) (P : List Nat) : List Nat :=
  hdLoop I P (List.replicate (I.length / 2) 0)

/-- Chaos label of `code_builder`'s tie-break: the Python f-string
`"KBit|v1|chaos|j=j|o=o|z=z"`. -/
def chaosLabel (j o z : Nat) : String :=
  "KBit|v1" ++ "|chaos|j=" ++ toString j ++ "|o=" ++ toString o ++
    "|z=" ++ toString z

/-- Vote-tally loop of `code_builder` over the pair/bit-position list:
a hint bit of 1 bumps `ones` at the position, anything else bumps
`zeros`. -/
def tallyLoop (gamma : List Nat) :
    List (Nat × Nat) → List Nat × List Nat → List Nat × List Nat
  | [], oz => oz
  | pj :: rest, (ones, zeros) =>
    if gamma.getD pj.1 0 = 1 then
      tallyLoop gamma rest (ones.set pj.2 (ones.getD pj.2 0 + 1), zeros)
    else
      tallyLoop gamma rest (ones, zeros.set pj.2 (zeros.getD pj.2 0 + 1))

/-- Vote tallies of `code_builder` over the pair/bit-position list,
starting from all-zero `ones` and `zeros` arrays of length `eta`. -/
def voteTallies (gamma : List Nat) (eta : Nat) (pjs : List (Nat × Nat)) :
    List Nat × List Nat :=
  tallyLoop gamma pjs (List.replicate eta 0, List.replicate eta 0)

/-- Per-position bit decision of `code_builder`: an all-ones tally
gives 1, an all-zeros tally gives 0, and any other combination the
keyed tie-break bit. -/
def codeBit (O : HmacModel) (key : String) (gamma : List Nat) (eta : Nat)
    (pjs : List (Nat × Nat)) (j : Nat) : Nat :=
  if 0 < (voteTallies gamma eta pjs).1.getD j 0 ∧
      (voteTallies gamma eta pjs).2.getD j 0 = 0 then 1
  else if 0 < (voteTallies gamma eta pjs).2.getD j 0 ∧
      (voteTallies gamma eta pjs).1.getD j 0 = 0 then 0
  else keyedBit O key (chaosLabel j ((voteTallies gamma eta pjs).1.getD j 0)
    ((voteTallies gamma eta pjs).2.getD j 0))

/-- Model of `code_builder`: tally per-position votes across the
permutation, then decide each bit position. -/
def codeBuilder (O : HmacModel) (key : String) (gamma : List Nat)
    (eta : Nat) (P : List Nat) (fuel : Nat) : Except String (List Nat) :=
  match mapE (fun p => keyedIndex O key p eta fuel) P with
  | .error e => .error e
  | .ok js =>
    .ok ((List.range eta).map (codeBit O key gamma eta (P.zip js)))

/-- Scatter loop of `prepare_parameters`: write `ζ2`'s bit at each
pair's keyed index into the hint vector at that pair. -/
def scatterGamma (zeta2 : List Nat) : List (Nat × Nat) → List Nat → List Nat
  | [], gamma => gamma
  | pj :: rest, gamma =>
    scatterGamma zeta2 rest (gamma.set pj.1 (zeta2.getD pj.2 0))

/-- Embedding loop of `prepare_parameters`: for each pair index in
permutation order, embed its hint bit into the adjacent pair by
difference expansion. -/
def embedLoop (gamma : List Nat) : List Nat → List Int → Except String (List Int)
  | [], I => .ok I
  | p :: ps, I =>
    match embedBit (I.getD (2 * p) 0) (I.getD (2 * p + 1) 0)
        ((gamma.getD p 0 : Nat) : Int) with
    | .error e => .error e
    | .ok emb => embedLoop gamma ps ((I.set (2 * p) emb.x_embedded).set (2 * p + 1) emb.y_embedded)

/-- Model of `prepare_parameters`: validate `zeta`, compute the keyed
permutation with its coverage check, expand `zeta` to `ζ2`, scatter
`ζ2` into the hint vector through the keyed index, and embed the hints
into the parameter pairs. -/
def prepareParameters (O : HmacModel) (key : String) (params : List Int)
    (zeta : Int) (eta fuel : Nat) : Except String PreparedInput :=
  if zeta < 0 then .error "zeta must be non-negative"
  else
    match computePermutation O key params.length eta fuel with
    | .error e => .error e
    | .ok P =>
      match bitsFromInt zeta.toNat eta with
      | .error e => .error e
      | .ok zeta2 =>
        match mapE (fun p => keyedIndex O key p eta fuel) P with
        | .error e => .error e
        | .ok js =>
          match embedLoop
              (scatterGamma zeta2 (P.zip js)
                (List.replicate (params.length / 2) 0)) P params with
          | .error e => .error e
          | .ok I => .ok ⟨I, P, eta⟩

/-- Model of `build_watermark_graph`: recompute the permutation with
its coverage check, detect the hints, rebuild `ζ2`, convert it to
base 6 and encode the watermark graph. -/
def buildWatermarkGraph (O : HmacModel) (key : String) (received : List Int)
    (eta fuel : Nat) : Except String AuthenticationBuild :=
  match computePermutation O key received.length eta fuel with
  | .error e => .error e
  | .ok P =>
    match codeBuilder O key (hintsDetection received P) eta P fuel with
    | .error e => .error e
    | .ok zeta2 =>
      match baseConvertDigits zeta2 2 6 with
      | .error e => .error e
      | .ok zeta6 =>
        match encodeWatermark zeta6 with
        | .error e => .error e
        | .ok gh => .ok ⟨gh.1, gh.2, P, eta⟩

/-- Restoration loop of `restore_params_from_pairs`: reverse the
difference expansion of each pair in permutation order. -/
def restoreLoop : List Nat → List Int → List Int
  | [], I => I
  | p :: ps, I =>
    let e := extractBitAndRestore (I.getD (2 * p) 0) (I.getD (2 * p + 1) 0)
    restoreLoop ps ((I.set (2 * p) e.2.1).set (2 * p + 1) e.2.2)

/-- Model of `restore_params_from_pairs`. -/
def restoreParamsFromPairs (watermarked : List Int) (P : List Nat) : List Int :=
  restoreLoop P watermarked

end IPA

namespace IPA

/-! List access helpers used throughout the loop characterisations. -/

theorem getD_set_self {l : List α} {i : Nat} {a d : α} (h : i < l.length) :
    (l.set i a).getD i d = a := by
  simp [List.getD_eq_getElem?_getD, List.getElem?_set_self h]

theorem getD_set_ne {l : List α} {i j : Nat} {a d : α} (h : i ≠ j) :
    (l.set i a).getD j d = l.getD j d := by
  simp [List.getD_eq_getElem?_getD, List.getElem?_set_ne h]

theorem getD_replicate {n i : Nat} {d : α} (h : i < n) :
    (List.replicate n d).getD i d = d := by
  simp [List.getD_eq_getElem?_getD, List.getElem?_replicate, h]

theorem set_getD_self {l : List α} {i : Nat} {d : α} (h : i < l.length) :
    l.set i (l.getD i d) = l := by
  apply List.ext_getElem?
  intro n
  by_cases hn : n = i
  · subst hn
    rw [List.getElem?_set_self h]
    simp [List.getD_eq_getElem?_getD, List.getElem?_eq_getElem h]
  · rw [List.getElem?_set_ne (fun he => hn he.symm)]

/-- Prepending the `j`-th element of a list to the list with position
`j` overwritten is a permutation of prepending the new value. -/
theorem cons_set_perm {xs : List α} {d : α} :
    ∀ {j : Nat}, j < xs.length → ∀ a : α,
      (xs.getD j d :: xs.set j a).Perm (a :: xs) := by
  induction xs with
  | nil => intro j h; simp at h
  | cons y ys ih =>
    intro j h a
    match j with
    | 0 => exact List.Perm.swap a y ys
    | k + 1 =>
      have hk : k < ys.length := by simpa using h
      exact (List.Perm.swap y (ys.getD k d) _).trans
        ((List.Perm.cons y (ih hk a)).trans (List.Perm.swap a y ys))

/-- A Fisher–Yates swap permutes the list. -/
theorem listSwap_perm {l : List Nat} {i j : Nat}
    (hi : i < l.length) (hj : j < l.length) : (listSwap l i j).Perm l := by
  by_cases hij : i = j
  · subst hij
    rw [listSwap, set_getD_self hi, set_getD_self hi]
  · induction l generalizing i j with
    | nil => simp at hi
    | cons x xs ih =>
      match i, j with
      | 0, 0 => exact absurd rfl hij
      | 0, k + 1 =>
        have hk : k < xs.length := by simpa using hj
        simpa [listSwap] using cons_set_perm hk x
      | m + 1, 0 =>
        have hm : m < xs.length := by simpa using hi
        simpa [listSwap] using cons_set_perm hm x
      | m + 1, k + 1 =>
        have hm : m < xs.length := by simpa using hi
        have hk : k < xs.length := by simpa using hj
        have : (listSwap xs m k).Perm xs :=
          ih hm hk (fun hmk => hij (by simp [hmk]))
        simpa [listSwap] using List.Perm.cons x this

theorem listSwap_length (l : List Nat) (i j : Nat) :
    (listSwap l i j).length = l.length := by
  simp [listSwap]

/-! Difference expansion arithmetic. -/

theorem fdiv2_eq (n : Int) : fdiv2 n = n / 2 := by
  rw [fdiv2, Int.fdiv_eq_ediv _ (by norm_num)]

theorem emod_eq (a b : Int) : Int.emod a b = a % b := rfl

theorem cdiv2_eq (n : Int) : cdiv2 n = -(-n / 2) := by
  rw [cdiv2, Int.fdiv_eq_ediv _ (by norm_num)]

theorem embedBit_eq_ok (x y bit : Int) (h : bit = 0 ∨ bit = 1) :
    embedBit x y bit =
      .ok ⟨fdiv2 (x + y) + cdiv2 (2 * (x - y) + bit),
           fdiv2 (x + y) - fdiv2 (2 * (x - y) + bit)⟩ := by
  rcases h with h | h <;> subst h <;> rfl

/-- The embedded pair's difference is exactly `2 * (x - y) + bit`. -/
theorem embed_diff (x y bit : Int) :
    (fdiv2 (x + y) + cdiv2 (2 * (x - y) + bit)) -
      (fdiv2 (x + y) - fdiv2 (2 * (x - y) + bit)) = 2 * (x - y) + bit := by
  simp only [fdiv2_eq, cdiv2_eq]
  omega

/-- Core inverse property of difference expansion. -/
theorem extract_embed (x y bit : Int) (h : bit = 0 ∨ bit = 1) :
    extractBitAndRestore (fdiv2 (x + y) + cdiv2 (2 * (x - y) + bit))
        (fdiv2 (x + y) - fdiv2 (2 * (x - y) + bit)) = (bit, (x, y)) := by
  rw [extractBitAndRestore]
  simp only [fdiv2_eq, cdiv2_eq, emod_eq, Prod.mk.injEq]
  refine ⟨?_, ?_, ?_⟩ <;> rcases h with h | h <;> subst h <;> omega

end IPA

namespace IPA

/-! Concrete oracle instances used by witnesses and counterexamples. -/

/-- Concrete oracle whose 64-bit hash value is always 0 (every draw is
accepted immediately and reduces to index 0). -/
def zeroHash : HmacModel := ⟨fun _ _ => 0, id⟩

/-- Concrete oracle whose 64-bit hash value is the sum of the message's
character codes; it distinguishes pair indices, giving full keyed-index
coverage at `eta = 2`. -/
def charSumHash : HmacModel :=
  ⟨fun _ m => (m.toList.map Char.toNat).sum, id⟩

/-! Fisher–Yates permutation facts. -/

theorem kPermDraw_lt {O : HmacModel} {seed : String} {i m : Nat} (hm : 0 < m) :
    ∀ {c fuel j c'}, kPermDraw O seed i m c fuel = some (j, c') → j < m := by
  intro c fuel
  induction fuel generalizing c with
  | zero => intro j c' h; simp [kPermDraw] at h
  | succ fuel ih =>
    intro j c' h
    rw [kPermDraw] at h
    split at h
    · cases h
      exact Nat.mod_lt _ hm
    · exact ih h

theorem kPermLoop_perm {O : HmacModel} {seed : String} {fuel : Nat} :
    ∀ (k i c : Nat) (P Q : List Nat),
      kPermLoop O seed fuel k i c P = some Q → i + k ≤ P.length → Q.Perm P := by
  intro k
  induction k with
  | zero =>
    intro i c P Q h _
    cases h
    exact List.Perm.refl _
  | succ k ih =>
    intro i c P Q h hlen
    rw [kPermLoop] at h
    split at h
    · cases h
    · rename_i j c' hdraw
      have hi : i < P.length := by omega
      have hj : j < P.length := by
        have := kPermDraw_lt (Nat.succ_pos i) hdraw
        omega
      have hrest : Q.Perm (listSwap P i j) :=
        ih (i + 1) c' (listSwap P i j) Q h (by rw [listSwap_length]; omega)
      exact hrest.trans (listSwap_perm hi hj)

/-- C8: `keyed_permutation(seed, n)` returns a permutation of `[0, n)`:
it has length `n` and contains every index below `n` exactly once
(each Fisher–Yates iteration only swaps two positions of the initial
identity list). -/
theorem keyedPermutation_perm {O : HmacModel} {seed : String}
    {n fuel : Nat} {P : List Nat}
    (h : keyedPermutation O seed n fuel = some P) : P.Perm (List.range n) :=
  @kPermLoop_perm O seed fuel (n - 1) 0 0 (List.range n) P h
    (by simp [List.length_range])

theorem c8_keyed_permutation_is_permutation (O : HmacModel) (seed : String)
    (n fuel : Nat) (P : List Nat) (h : keyedPermutation O seed n fuel = some P) :
    P.Perm (List.range n) ∧ P.length = n ∧ ∀ i < n, P.count i = 1 := by
  have hperm : P.Perm (List.range n) := keyedPermutation_perm h
  refine ⟨hperm, by simpa using hperm.length_eq, ?_⟩
  intro i hi
  have hnodup : P.Nodup := hperm.symm.nodup (List.nodup_range n)
  have hmem : i ∈ P := hperm.mem_iff.mpr (List.mem_range.mpr hi)
  exact List.count_eq_one_of_mem hnodup hmem

/-- Witness for C8 at a concrete oracle, seed and length. -/
theorem c8_witness :
    keyedPermutation zeroHash "s" 2 1 = some [0, 1] ∧
      ([0, 1] : List Nat).Perm (List.range 2) ∧
      ([0, 1] : List Nat).length = 2 ∧ ∀ i < 2, ([0, 1] : List Nat).count i = 1 := by
  have h : keyedPermutation zeroHash "s" 2 1 = some [0, 1] := by decide
  exact ⟨h, c8_keyed_permutation_is_permutation zeroHash "s" 2 1 [0, 1] h⟩

/-- C2: for all integers `x`, `y` (any sign, any magnitude) and every
bit in 0..1, `extract_bit_and_restore` applied to the pair produced by
`embed_bit(x, y, bit)` returns exactly `(bit, (x, y))`: the
difference-expansion embedding is an exact two-sided inverse. -/
theorem c2_difference_expansion_roundtrip (x y bit : Int)
    (h : bit = 0 ∨ bit = 1) :
    ∃ e, embedBit x y bit = .ok e ∧
      extractBitAndRestore e.x_embedded e.y_embedded = (bit, (x, y)) :=
  ⟨_, embedBit_eq_ok x y bit h, extract_embed x y bit h⟩

/-- Witness for C2 at `x = 5`, `y = 3`, `bit = 1`. -/
theorem c2_witness :
    ((1 : Int) = 0 ∨ (1 : Int) = 1) ∧
      ∃ e, embedBit 5 3 1 = .ok e ∧
        extractBitAndRestore e.x_embedded e.y_embedded = (1, (5, 3)) :=
  ⟨Or.inr rfl, c2_difference_expansion_roundtrip 5 3 1 (Or.inr rfl)⟩

/-- C10: `embed_bit` fails exactly when the bit is neither 0 nor 1,
and `extract_bit_and_restore` is total: it always returns a bit in
0..1 together with a restored pair. -/
theorem c10_embed_fail_iff_and_extract_total (x y bit : Int) :
    ((∃ e, embedBit x y bit = .ok e) ↔ (bit = 0 ∨ bit = 1)) ∧
      ((extractBitAndRestore x y).1 = 0 ∨ (extractBitAndRestore x y).1 = 1) := by
  constructor
  · constructor
    · intro ⟨e, he⟩
      by_contra hbit
      rw [embedBit, if_pos (by omega)] at he
      cases he
    · intro h
      exact ⟨_, embedBit_eq_ok x y bit h⟩
  · rw [extractBitAndRestore]
    simp only [emod_eq]
    omega

end IPA

namespace IPA

/-! Base-conversion facts. -/

theorem digitsOfAux_eq {base : Nat} (hb : 2 ≤ base) :
    ∀ fuel n, n ≤ fuel → digitsOfAux base n fuel = Nat.digits base n := by
  intro fuel
  induction fuel with
  | zero =>
    intro n hn
    have : n = 0 := by omega
    subst this
    simp [digitsOfAux]
  | succ fuel ih =>
    intro n hn
    rw [digitsOfAux]
    by_cases h0 : n = 0
    · subst h0; simp
    · rw [if_neg h0, Nat.digits_def' (by omega : 1 < base) (by omega : 0 < n)]
      congr 1
      exact ih (n / base) (by
        have : n / base < n := Nat.div_lt_self (by omega) (by omega)
        omega)

theorem digitsBE_eq {n base : Nat} (hb : 2 ≤ base) :
    digitsBE n base = if n = 0 then [0] else (Nat.digits base n).reverse := by
  rw [digitsBE]
  by_cases h0 : n = 0
  · simp [h0]
  · rw [if_neg h0, if_neg h0, digitsOfAux_eq hb n n (Nat.le_refl n)]

theorem digitsBE_ne_nil (n base : Nat) (hb : 2 ≤ base) : digitsBE n base ≠ [] := by
  rw [digitsBE_eq hb]
  by_cases h0 : n = 0
  · simp [h0]
  · simp only [if_neg h0, ne_eq, List.reverse_eq_nil_iff]
    exact Nat.digits_ne_nil_iff_ne_zero.mpr h0

theorem digitsBE_lt {n base : Nat} (hb : 2 ≤ base) :
    ∀ d ∈ digitsBE n base, d < base := by
  rw [digitsBE_eq hb]
  by_cases h0 : n = 0
  · simp [h0]; omega
  · rw [if_neg h0]
    intro d hd
    exact Nat.digits_lt_base (by omega) (List.mem_reverse.mp hd)

/-- Length of the big-endian digit list against a power of the base. -/
theorem digitsBE_length_le_iff {n base eta : Nat} (hb : 2 ≤ base) (he : 1 ≤ eta) :
    (digitsBE n base).length ≤ eta ↔ n < base ^ eta := by
  rw [digitsBE_eq hb]
  by_cases h0 : n = 0
  · subst h0
    simp only [if_pos rfl, List.length_singleton]
    constructor
    · intro _; exact Nat.pos_pow_of_pos eta (by omega)
    · intro _; exact he
  · rw [if_neg h0, List.length_reverse,
      Nat.digits_len base n (by omega) h0,
      Nat.lt_pow_iff_log_lt (by omega : 1 < base) h0]
    omega

theorem ofDigits_replicate_zero (b k : Nat) :
    Nat.ofDigits b (List.replicate k 0) = 0 := by
  induction k with
  | zero => simp
  | succ k ih => simp [List.replicate_succ, Nat.ofDigits_cons, ih]

theorem digitsToIntLoop_ok {base : Nat} :
    ∀ (ds : List Nat) (acc : Nat), (∀ d ∈ ds, d < base) →
      digitsToIntLoop base ds acc =
        .ok (acc * base ^ ds.length + Nat.ofDigits base ds.reverse) := by
  intro ds
  induction ds with
  | nil => intro acc _; simp [digitsToIntLoop]
  | cons d ds ih =>
    intro acc hd
    rw [digitsToIntLoop, if_neg (by
      have := hd d (List.mem_cons_self d ds)
      omega)]
    rw [ih (acc * base + d) (fun x hx => hd x (List.mem_cons_of_mem d hx))]
    congr 1
    rw [List.reverse_cons, Nat.ofDigits_append]
    simp [Nat.ofDigits_cons, List.length_cons, List.length_reverse]
    ring

/-- Value of `digits_to_int` on a left-zero-padded big-endian digit
list of `n`. -/
theorem digitsToInt_pad {n base : Nat} (k : Nat) (hb : 2 ≤ base) :
    digitsToInt (List.replicate k 0 ++ digitsBE n base) base = .ok n := by
  rw [digitsToInt, if_neg (by omega), if_neg (by
    intro h
    exact digitsBE_ne_nil n base hb (List.append_eq_nil.mp h).2)]
  rw [digitsToIntLoop_ok _ 0 (by
    intro d hd
    rcases List.mem_append.mp hd with h | h
    · have := List.eq_of_mem_replicate h
      omega
    · exact digitsBE_lt hb d h)]
  rw [List.reverse_append, List.reverse_replicate, Nat.ofDigits_append,
    ofDigits_replicate_zero]
  simp only [Nat.zero_mul, Nat.zero_add, Nat.mul_zero, Nat.add_zero]
  congr 1
  rw [digitsBE_eq hb]
  by_cases h0 : n = 0
  · simp [h0]
  · rw [if_neg h0, List.reverse_reverse, Nat.ofDigits_digits]

theorem digitsToInt_digitsBE {n base : Nat} (hb : 2 ≤ base) :
    digitsToInt (digitsBE n base) base = .ok n := by
  have := @digitsToInt_pad n base 0 hb
  simpa using this

/-- Success shape of `bits_from_int` when `n` fits in `eta` bits. -/
theorem bitsFromInt_ok {n eta : Nat} (he : 1 ≤ eta) (hn : n < 2 ^ eta) :
    bitsFromInt n eta =
      .ok (List.replicate (eta - (digitsBE n 2).length) 0 ++ digitsBE n 2) := by
  have hlen : (digitsBE n 2).length ≤ eta :=
    (digitsBE_length_le_iff (by omega) he).mpr hn
  have h2 : intToDigits n 2 = .ok (digitsBE n 2) := by
    rw [intToDigits]; rfl
  rw [bitsFromInt, if_neg (by omega)]
  simp only [h2]
  rw [if_neg (by omega)]

/-- Inversion of a successful `bits_from_int`. -/
theorem bitsFromInt_ok_inv {n eta : Nat} {bits : List Nat}
    (h : bitsFromInt n eta = .ok bits) :
    1 ≤ eta ∧ n < 2 ^ eta ∧
      bits = List.replicate (eta - (digitsBE n 2).length) 0 ++ digitsBE n 2 := by
  rw [bitsFromInt] at h
  split at h
  · cases h
  · rename_i he
    have h2 : intToDigits n 2 = .ok (digitsBE n 2) := by
      rw [intToDigits]; rfl
    simp only [h2] at h
    split at h
    · cases h
    · rename_i hlen
      cases h
      refine ⟨by omega, ?_, rfl⟩
      exact (digitsBE_length_le_iff (by omega) (by omega)).mp (by omega)

/-- Bits produced by `bits_from_int` are binary digits. -/
theorem bitsFromInt_bits_lt {n eta : Nat} {bits : List Nat}
    (h : bitsFromInt n eta = .ok bits) : ∀ b ∈ bits, b < 2 := by
  obtain ⟨-, -, rfl⟩ := bitsFromInt_ok_inv h
  intro b hb
  rcases List.mem_append.mp hb with h | h
  · have := List.eq_of_mem_replicate h
    omega
  · exact digitsBE_lt (by omega) b h

/-- Length of the fixed-length bit array. -/
theorem bitsFromInt_length {n eta : Nat} {bits : List Nat}
    (h : bitsFromInt n eta = .ok bits) : bits.length = eta := by
  obtain ⟨he, hn, rfl⟩ := bitsFromInt_ok_inv h
  have hlen : (digitsBE n 2).length ≤ eta :=
    (digitsBE_length_le_iff (by omega) he).mpr hn
  simp [List.length_append, List.length_replicate]
  omega

/-- Reading back the fixed-length bit array recovers `n`. -/
theorem bitsFromInt_value {n eta : Nat} {bits : List Nat}
    (h : bitsFromInt n eta = .ok bits) : digitsToInt bits 2 = .ok n := by
  obtain ⟨-, -, rfl⟩ := bitsFromInt_ok_inv h
  exact digitsToInt_pad _ (by omega)

end IPA

namespace IPA

/-! Watermark graph facts. -/

theorem mapE_ok {f : α → Except String β} (h : α → β) :
    ∀ {l : List α}, (∀ x ∈ l, f x = .ok (h x)) → mapE f l = .ok (l.map h) := by
  intro l
  induction l with
  | nil => intro _; rfl
  | cons x xs ih =>
    intro hall
    rw [mapE, hall x (List.mem_cons_self x xs),
      ih (fun y hy => hall y (List.mem_cons_of_mem x hy))]
    rfl

theorem map_getD_range {l : List α} {d : α} :
    (List.range l.length).map (fun r => l.getD r d) = l := by
  apply List.ext_getElem
  · simp
  · intro n h1 h2
    simp only [List.getElem_map, List.getElem_range,
      List.getD_eq_getElem?_getD]
    rw [List.getElem?_eq_getElem h2]
    rfl

theorem getD_map_range {f : Nat → α} {mu r : Nat} (h : r < mu) (d : α) :
    ((List.range mu).map f).getD r d = f r := by
  rw [List.getD_eq_getElem?_getD, List.getElem?_map, List.getElem?_range h]
  rfl

theorem getD_mem_of_lt {l : List α} {r : Nat} {d : α} (h : r < l.length) :
    l.getD r d ∈ l := by
  rw [List.getD_eq_getElem?_getD, List.getElem?_eq_getElem h]
  exact List.getElem_mem h

/-- Cancellation of addition under a common modulus for small operands. -/
theorem mod_add_inj {mu p0 j k : Nat} (hj : j < mu) (hk : k < mu)
    (h : (p0 + j) % mu = (p0 + k) % mu) : j = k := by
  have hmod : j % mu = k % mu := Nat.ModEq.add_left_cancel' p0 h
  rw [Nat.mod_eq_of_lt hj, Nat.mod_eq_of_lt hk] at hmod
  exact hmod

/-- The ring-materialisation walk of `decode_watermark` on any graph
whose first `mu` nodes link `r` to `(r + 1) % mu`. -/
theorem ringFrom_ring {g : Graph} {mu : Nat}
    (hg : ∀ r < mu, (getNode g r).next = some ((r + 1) % mu)) :
    ∀ (k cur : Nat), cur + k < mu →
      ringFrom g cur k = some (List.range' cur (k + 1)) := by
  intro k
  induction k with
  | zero => intro cur _; rfl
  | succ k ih =>
    intro cur hcur
    rw [ringFrom, hg cur (by omega)]
    have hm : (cur + 1) % mu = cur + 1 := Nat.mod_eq_of_lt (by omega)
    rw [hm]
    simp only [ih (cur + 1) (by omega), List.range'_succ]

/-- The digit-recovery walk of `decode_watermark` on the successor
ring: starting at `p0`, the target `(p0 + k) % mu` is reached in
exactly `k` steps. -/
theorem walkDigit_ring {g : Graph} {mu : Nat}
    (hg : ∀ r < mu, (getNode g r).next = some ((r + 1) % mu))
    {p0 k : Nat} (hp : p0 < mu) (hk : k < mu) :
    walkDigit g mu ((p0 + k) % mu) p0 0 = .ok k := by
  have main : ∀ (m j fuel : Nat), j + m = k → m < fuel →
      walkGo g mu ((p0 + k) % mu) ((p0 + j) % mu) j fuel = .ok k := by
    intro m
    induction m with
    | zero =>
      intro j fuel hj _
      have hjk : j = k := by omega
      subst hjk
      rw [walkGo, if_pos rfl]
    | succ m ih =>
      intro j fuel hj hfuel
      have hjlt : j < k := by omega
      have hne : (p0 + j) % mu ≠ (p0 + k) % mu := by
        intro hcontra
        have := mod_add_inj (by omega) hk hcontra
        omega
      have hprobe : (p0 + j) % mu < mu := Nat.mod_lt _ (by omega)
      have hstep : ((p0 + j) % mu + 1) % mu = (p0 + (j + 1)) % mu := by
        rw [← Nat.add_assoc]
        conv_rhs => rw [Nat.add_mod (p0 + j) 1 mu]
        rw [Nat.mod_eq_of_lt (show 1 < mu by omega)]
      obtain ⟨fuel', rfl⟩ : ∃ fuel', fuel = fuel' + 1 :=
        ⟨fuel - 1, by omega⟩
      rw [walkGo, if_neg hne, hg _ hprobe]
      simp only [hstep, if_neg (show ¬ (mu < j + 1) by omega)]
      exact ih (j + 1) fuel' (by omega) (by omega)
  have := main k 0 (mu + 1) (Nat.zero_add k) (by omega)
  rw [Nat.add_zero, Nat.mod_eq_of_lt hp] at this
  exact this

/-- Decoding the encoded graph of a digit list whose digits do not
exceed its length recovers the list exactly. -/
theorem decode_encode {zeta6 : List Nat} (hne : zeta6 ≠ [])
    (hle : ∀ d ∈ zeta6, d ≤ zeta6.length) :
    encodeWatermark zeta6 = .ok (encGraph zeta6, 0) ∧
      decodeWatermark (encGraph zeta6) 0 zeta6.length = .ok zeta6 := by
  have hmu1 : 0 < zeta6.length := List.length_pos.mpr hne
  have hnode : ∀ r < zeta6.length, getNode (encGraph zeta6) r =
      ⟨some ((r + 1) % zeta6.length),
       match zeta6.getD r 0 with
       | 0 => none
       | d => some ((r + d - 1) % zeta6.length)⟩ := by
    intro r hr
    rw [encGraph, getNode, getD_map_range hr]
  have hnext : ∀ r < zeta6.length,
      (getNode (encGraph zeta6) r).next = some ((r + 1) % zeta6.length) := by
    intro r hr
    rw [hnode r hr]
  constructor
  · rw [encodeWatermark, if_neg (by omega)]
  · rw [decodeWatermark, if_neg (by omega)]
    have hring : ringFrom (encGraph zeta6) 0 (zeta6.length - 1) =
        some (List.range' 0 zeta6.length) := by
      have := ringFrom_ring hnext (zeta6.length - 1) 0 (by omega)
      rwa [show zeta6.length - 1 + 1 = zeta6.length by omega] at this
    rw [hring]
    have hstep : ∀ nr ∈ List.range zeta6.length,
        (match (getNode (encGraph zeta6) nr).digit with
         | none => Except.ok 0
         | some t =>
           match walkDigit (encGraph zeta6) zeta6.length t nr 0 with
           | .error e => .error e
           | .ok s => .ok (s + 1)) = Except.ok (zeta6.getD nr 0) := by
      intro nr hnr
      have hr : nr < zeta6.length := List.mem_range.mp hnr
      rw [hnode nr hr]
      cases hd : zeta6.getD nr 0 with
      | zero => rfl
      | succ d =>
        have hdle : d + 1 ≤ zeta6.length := by
          have hmem : zeta6.getD nr 0 ∈ zeta6 := getD_mem_of_lt (by omega)
          rw [hd] at hmem
          exact hle _ hmem
        have ht : nr + (d + 1) - 1 = nr + d := by omega
        have hw : walkDigit (encGraph zeta6) zeta6.length
            ((nr + d) % zeta6.length) nr 0 = .ok d :=
          walkDigit_ring hnext hr (by omega)
        simp only [ht, hw]
    have hmap := mapE_ok (fun nr => zeta6.getD nr 0) hstep
    rw [show List.range' 0 zeta6.length = List.range zeta6.length from
      (List.range_eq_range' zeta6.length).symm]
    simp only [hmap, map_getD_range]

end IPA

namespace IPA

/-- C3 (amended): for every digit array `d` with values in `[0, 5]`,
positive length `mu`, and — as the code requires — every value at most
`mu`, `decode_watermark(encode_watermark(d), mu)` returns exactly `d`.
Without the extra bound a nonzero digit `d` decodes as
`((d - 1) mod mu) + 1`, which differs from `d` when `d > mu`. -/
theorem c3_graph_roundtrip (d : List Nat) (h1 : 0 < d.length)
    (_h5 : ∀ v ∈ d, v ≤ 5) (hlen : ∀ v ∈ d, v ≤ d.length) :
    ∃ g head, encodeWatermark d = .ok (g, head) ∧
      decodeWatermark g head d.length = .ok d := by
  have hne : d ≠ [] := by
    intro hnil
    rw [hnil] at h1
    simp at h1
  have := decode_encode hne hlen
  exact ⟨encGraph d, 0, this.1, this.2⟩

/-- Witness for C3 on the digit array `[1]`. -/
theorem c3_witness :
    (0 < ([1] : List Nat).length ∧ (∀ v ∈ ([1] : List Nat), v ≤ 5) ∧
      (∀ v ∈ ([1] : List Nat), v ≤ ([1] : List Nat).length)) ∧
    ∃ g head, encodeWatermark [1] = .ok (g, head) ∧
      decodeWatermark g head ([1] : List Nat).length = .ok [1] :=
  ⟨⟨by decide, by decide, by decide⟩,
   c3_graph_roundtrip [1] (by decide) (by decide) (by decide)⟩

/-- Counterexample to C3 as stated: the digit array `[2]` has all
values in `[0, 5]` and positive length `mu = 1`, yet decoding its
encoded graph returns `[1]`, not `[2]` — the single node's digit
pointer targets itself, which decodes as digit 1. -/
theorem c3_counterexample :
    (∀ v ∈ ([2] : List Nat), v ≤ 5) ∧ 0 < ([2] : List Nat).length ∧
      encodeWatermark [2] = .ok ([⟨some 0, some 0⟩], 0) ∧
      decodeWatermark [⟨some 0, some 0⟩] 0 ([2] : List Nat).length = .ok [1] ∧
      ([1] : List Nat) ≠ [2] :=
  ⟨by decide, by decide, by rfl, by rfl, by decide⟩

/-- C4: for every graph head and every `expectedCode ≥ 0`,
`controller_verify` returns a structured `VerificationResult` and never
raises — every failure of the decode/convert `try` block is converted
into a non-authentic result carrying the error text — and it raises
exactly when `expectedCode < 0`. -/
theorem c4_controller_verify_total (g : Graph) (head : Nat) (z : Int) :
    (z < 0 → controllerVerify g head z = .error "expected_zeta must be non-negative") ∧
    (0 ≤ z → ∃ r : VerificationResult, controllerVerify g head z = .ok r ∧
      (∀ e, tryDecode g head (digitsBE z.toNat 6).length = .error e →
        r = ⟨false, none, none, some e⟩)) := by
  constructor
  · intro hz
    rw [controllerVerify, if_pos hz]
  · intro hz
    rw [controllerVerify, if_neg (by omega)]
    have h6 : intToDigits z.toNat 6 = .ok (digitsBE z.toNat 6) := by
      rw [intToDigits]
      rfl
    cases htry : tryDecode g head (digitsBE z.toNat 6).length with
    | error e =>
      refine ⟨⟨false, none, none, some e⟩, ?_, ?_⟩
      · simp only [h6, htry]
      · intro e' he'
        cases he'
        rfl
    | ok p =>
      obtain ⟨z6, n⟩ := p
      refine ⟨⟨decide ((n : Int) = z), some n, some z6, none⟩, ?_, ?_⟩
      · simp only [h6, htry]
      · intro e' he'
        cases he'

/-- Witness for C4: a negative code raises, and a broken single-node
graph with `expectedCode = 7` yields a caught broken-ring error. -/
theorem c4_witness :
    controllerVerify [(⟨none, none⟩ : GNode)] 0 (-1) =
      .error "expected_zeta must be non-negative" ∧
    ∃ r : VerificationResult,
      controllerVerify [(⟨none, none⟩ : GNode)] 0 7 = .ok r ∧
      (∀ e, tryDecode [(⟨none, none⟩ : GNode)] 0
          (digitsBE (7 : Int).toNat 6).length = .error e →
        r = ⟨false, none, none, some e⟩) :=
  ⟨(c4_controller_verify_total [⟨none, none⟩] 0 (-1)).1 (by decide),
   (c4_controller_verify_total [⟨none, none⟩] 0 7).2 (by decide)⟩

end IPA

namespace IPA

/-! Facts about the effectful map and the keyed index. -/

theorem mapE_cons_inv {f : α → Except String β} {x : α} {xs : List α}
    {ys : List β} (h : mapE f (x :: xs) = .ok ys) :
    ∃ y ys', f x = .ok y ∧ mapE f xs = .ok ys' ∧ ys = y :: ys' := by
  rw [mapE] at h
  cases hfx : f x with
  | error e =>
    simp only [hfx] at h
    cases h
  | ok y =>
    simp only [hfx] at h
    cases hrest : mapE f xs with
    | error e =>
      simp only [hrest] at h
      cases h
    | ok ys' =>
      simp only [hrest] at h
      cases h
      exact ⟨y, ys', rfl, rfl, rfl⟩

theorem mapE_length {f : α → Except String β} :
    ∀ {l : List α} {ys : List β}, mapE f l = .ok ys → ys.length = l.length := by
  intro l
  induction l with
  | nil => intro ys h; cases h; rfl
  | cons x xs ih =>
    intro ys h
    obtain ⟨y, ys', -, hys', rfl⟩ := mapE_cons_inv h
    simp [ih hys']

theorem mapE_zip {f : α → Except String β} :
    ∀ {l : List α} {ys : List β}, mapE f l = .ok ys →
      ∀ pj ∈ l.zip ys, f pj.1 = .ok pj.2 := by
  intro l
  induction l with
  | nil => intro ys h pj hpj; simp at hpj
  | cons x xs ih =>
    intro ys h pj hpj
    obtain ⟨y, ys', hy, hys', rfl⟩ := mapE_cons_inv h
    rw [List.zip_cons_cons] at hpj
    rcases List.mem_cons.mp hpj with h1 | h1
    · subst h1; exact hy
    · exact ih hys' pj h1

theorem mapE_mem_inv {f : α → Except String β} :
    ∀ {l : List α} {ys : List β}, mapE f l = .ok ys →
      ∀ y ∈ ys, ∃ x ∈ l, f x = .ok y := by
  intro l
  induction l with
  | nil => intro ys h y hy; cases h; simp at hy
  | cons x xs ih =>
    intro ys h y hy
    obtain ⟨y', ys', hy', hys', rfl⟩ := mapE_cons_inv h
    rcases List.mem_cons.mp hy with h1 | h1
    · exact ⟨x, List.mem_cons_self x xs, h1 ▸ hy'⟩
    · obtain ⟨x', hx', hfx'⟩ := ih hys' y h1
      exact ⟨x', List.mem_cons_of_mem x hx', hfx'⟩

theorem keyedIndexAux_lt {O : HmacModel} {key : String} {p eta : Nat} :
    ∀ {c fuel j : Nat}, keyedIndexAux O key p eta c fuel = .ok j → j < eta := by
  intro c fuel
  induction fuel generalizing c with
  | zero => intro j h; cases h
  | succ fuel ih =>
    intro j h
    rw [keyedIndexAux] at h
    split at h
    · cases h
      rename_i hr
      by_cases heta : eta = 0
      · subst heta
        simp at hr
      · exact Nat.mod_lt _ (by omega)
    · exact ih h

theorem keyedIndex_lt {O : HmacModel} {key : String} {p eta fuel j : Nat}
    (h : keyedIndex O key p eta fuel = .ok j) : j < eta := by
  rw [keyedIndex] at h
  split at h
  · cases h
  · exact keyedIndexAux_lt h

/-- Full coverage: a vote-index list with values below `eta` and at
least `eta` distinct values contains every position below `eta`. -/
theorem coverage_full {js : List Nat} {eta : Nat}
    (hlt : ∀ x ∈ js, x < eta) (hcard : eta ≤ js.dedup.length) :
    ∀ j < eta, j ∈ js := by
  intro j hj
  have hnd : js.dedup.Nodup := List.nodup_dedup js
  have hsub : js.dedup.toFinset ⊆ Finset.range eta := by
    intro x hx
    rw [List.mem_toFinset, List.mem_dedup] at hx
    exact Finset.mem_range.mpr (hlt x hx)
  have hcard2 : (Finset.range eta).card ≤ js.dedup.toFinset.card := by
    rw [List.toFinset_card_of_nodup hnd, Finset.card_range]
    exact hcard
  have heq := Finset.eq_of_subset_of_card_le hsub hcard2
  have hjmem : j ∈ js.dedup.toFinset := by
    rw [heq]
    exact Finset.mem_range.mpr hj
  rw [List.mem_toFinset, List.mem_dedup] at hjmem
  exact hjmem

/-! Inversion and construction of `_compute_permutation`. -/

theorem computePermutation_ok_inv {O : HmacModel} {key : String}
    {paramsLen eta fuel : Nat} {P : List Nat}
    (h : computePermutation O key paramsLen eta fuel = .ok P) :
    2 ≤ paramsLen ∧ eta ≤ paramsLen / 2 ∧
      keyedPermutation O (prngSeed O key) (paramsLen / 2) fuel = some P ∧
      ∃ js, mapE (fun p => keyedIndex O key p eta fuel) P = .ok js ∧
        eta ≤ js.dedup.length := by
  rw [computePermutation] at h
  split at h
  · cases h
  · split at h
    · cases h
    · split at h
      · cases h
      · rename_i P' hP'
        split at h
        · cases h
        · rename_i js hjs
          split at h
          · cases h
          · cases h
            rename_i hcov
            exact ⟨by omega, by omega, hP', js, hjs, by omega⟩

theorem computePermutation_ok_of {O : HmacModel} {key : String}
    {paramsLen eta fuel : Nat} {P js : List Nat}
    (h2 : 2 ≤ paramsLen) (he : eta ≤ paramsLen / 2)
    (hP : keyedPermutation O (prngSeed O key) (paramsLen / 2) fuel = some P)
    (hjs : mapE (fun p => keyedIndex O key p eta fuel) P = .ok js)
    (hcov : eta ≤ js.dedup.length) :
    computePermutation O key paramsLen eta fuel = .ok P := by
  rw [computePermutation, if_neg (by omega), if_neg (by omega)]
  simp only [hP, hjs]
  rw [if_neg (by omega)]

end IPA

namespace IPA

/-- C5 (amended to `eta > 0`): given that the keyed permutation and
all keyed-index calls terminate, `_compute_permutation(paramsLen, key,
eta)` with `eta > 0` succeeds exactly when `paramsLen ≥ 2`, the pair
count `paramsLen / 2` is at least `eta`, and the keyed indices of the
permutation cover at least `eta` distinct positions; it is a pure
function of `(key, paramsLen, eta)`, and a failure propagates with the
identical error through both the prepare and the build path.  (For
`eta = 0` the code raises outside the stated conditions, see the
counterexample.) -/
theorem c5_compute_permutation_failure_conditions
    (O : HmacModel) (key : String) (paramsLen eta fuel : Nat) (P js : List Nat)
    (_heta : 0 < eta)
    (hP : keyedPermutation O (prngSeed O key) (paramsLen / 2) fuel = some P)
    (hjs : mapE (fun p => keyedIndex O key p eta fuel) P = .ok js) :
    (computePermutation O key paramsLen eta fuel = .ok P ↔
      (2 ≤ paramsLen ∧ eta ≤ paramsLen / 2 ∧ eta ≤ js.dedup.length)) ∧
    (∀ e, computePermutation O key paramsLen eta fuel = .error e →
      ∀ (params : List Int) (zeta : Int), params.length = paramsLen →
        0 ≤ zeta →
        prepareParameters O key params zeta eta fuel = .error e ∧
        buildWatermarkGraph O key params eta fuel = .error e) := by
  constructor
  · constructor
    · intro h
      obtain ⟨h2, he, -, js', hjs', hcov⟩ := computePermutation_ok_inv h
      rw [hjs] at hjs'
      cases hjs'
      exact ⟨h2, he, hcov⟩
    · intro ⟨h2, he, hcov⟩
      exact computePermutation_ok_of h2 he hP hjs hcov
  · intro e he params zeta hlen hz
    subst hlen
    constructor
    · rw [prepareParameters, if_neg (by omega)]
      simp only [he]
    · rw [buildWatermarkGraph]
      simp only [he]

/-- Witness for C5 at the zero oracle with two parameters and
`eta = 1`. -/
theorem c5_witness :
    (computePermutation zeroHash "k" 2 1 1 = .ok [0] ↔
      (2 ≤ 2 ∧ 1 ≤ 2 / 2 ∧ 1 ≤ ([0] : List Nat).dedup.length)) ∧
    (∀ e, computePermutation zeroHash "k" 2 1 1 = .error e →
      ∀ (params : List Int) (zeta : Int), params.length = 2 → 0 ≤ zeta →
        prepareParameters zeroHash "k" params zeta 1 1 = .error e ∧
        buildWatermarkGraph zeroHash "k" params 1 1 = .error e) :=
  c5_compute_permutation_failure_conditions zeroHash "k" 2 1 1 [0] [0]
    (by decide) (by rfl) (by rfl)

/-- Counterexample to C5 as stated: for `eta = 0` and two parameters
none of the three stated failure conditions holds — `paramsLen = 2` is
not below 2, the pair count 1 is not below `eta = 0`, and no coverage
set can have fewer than 0 distinct elements — yet the code raises
"eta must be > 0" (from `keyed_index` during the coverage
computation). -/
theorem c5_counterexample :
    computePermutation zeroHash "k" 2 0 1 = .error "eta must be > 0" ∧
      ¬ (2 < 2) ∧ ¬ (2 / 2 < 0) ∧ ∀ S : List Nat, ¬ S.dedup.length < 0 :=
  ⟨by rfl, by decide, by decide, fun S => by omega⟩

end IPA


namespace IPA

/-! Characterisations of the encoder's write loops. -/

theorem list_eq_of_getD {d : α} :
    ∀ {A B : List α}, A.length = B.length →
      (∀ m, A.getD m d = B.getD m d) → A = B := by
  intro A
  induction A with
  | nil =>
    intro B hlen _
    cases B with
    | nil => rfl
    | cons b bs => simp at hlen
  | cons a as ih =>
    intro B hlen hget
    cases B with
    | nil => simp at hlen
    | cons b bs =>
      have h0 := hget 0
      simp only [List.getD_cons_zero] at h0
      have hrest : as = bs :=
        ih (by simpa using hlen) (fun m => by simpa using hget (m + 1))
      rw [h0, hrest]

theorem getD_set_lt {l : List Nat} {p x : Nat} (hx : x < 2)
    (hl : ∀ v, l.getD v 0 < 2) : ∀ v, (l.set p x).getD v 0 < 2 := by
  intro v
  by_cases hpv : p = v
  · subst hpv
    by_cases hp : p < l.length
    · rw [getD_set_self hp]
      exact hx
    · rw [List.set_eq_of_length_le (by omega)]
      exact hl p
  · rw [getD_set_ne hpv]
    exact hl v

theorem scatterGamma_length {zeta2 : List Nat} :
    ∀ (pjs : List (Nat × Nat)) (gamma : List Nat),
      (scatterGamma zeta2 pjs gamma).length = gamma.length := by
  intro pjs
  induction pjs with
  | nil => intro gamma; rfl
  | cons pj rest ih =>
    intro gamma
    rw [scatterGamma, ih]
    simp

theorem scatterGamma_not_mem {zeta2 : List Nat} :
    ∀ (pjs : List (Nat × Nat)) (gamma : List Nat) (q : Nat),
      (∀ pj ∈ pjs, pj.1 ≠ q) →
      (scatterGamma zeta2 pjs gamma).getD q 0 = gamma.getD q 0 := by
  intro pjs
  induction pjs with
  | nil => intro gamma q _; rfl
  | cons pj rest ih =>
    intro gamma q hq
    rw [scatterGamma, ih _ q (fun x hx => hq x (List.mem_cons_of_mem pj hx))]
    exact getD_set_ne (hq pj (List.mem_cons_self pj rest))

theorem scatterGamma_getD {zeta2 : List Nat} :
    ∀ (pjs : List (Nat × Nat)) (gamma : List Nat) (p j : Nat),
      (p, j) ∈ pjs → (pjs.map Prod.fst).Nodup → p < gamma.length →
      (scatterGamma zeta2 pjs gamma).getD p 0 = zeta2.getD j 0 := by
  intro pjs
  induction pjs with
  | nil => intro gamma p j hmem _ _; simp at hmem
  | cons pj rest ih =>
    intro gamma p j hmem hnd hp
    rw [List.map_cons, List.nodup_cons] at hnd
    rcases List.mem_cons.mp hmem with heq | hmem'
    · subst heq
      have hframe : ∀ x ∈ rest, x.1 ≠ p := by
        intro x hx hx1
        apply hnd.1
        show (p, j).1 ∈ rest.map Prod.fst
        rw [show ((p, j).1 : Nat) = x.1 from hx1.symm]
        exact List.mem_map_of_mem Prod.fst hx
      simp only [scatterGamma]
      rw [scatterGamma_not_mem _ _ p hframe]
      exact getD_set_self hp
    · simp only [scatterGamma]
      exact ih _ p j hmem' hnd.2 (by simpa using hp)

theorem scatterGamma_lt {zeta2 : List Nat} (hz : ∀ v, zeta2.getD v 0 < 2) :
    ∀ (pjs : List (Nat × Nat)) (gamma : List Nat),
      (∀ v, gamma.getD v 0 < 2) →
      ∀ q, (scatterGamma zeta2 pjs gamma).getD q 0 < 2 := by
  intro pjs
  induction pjs with
  | nil => intro gamma hg q; exact hg q
  | cons pj rest ih =>
    intro gamma hg q
    rw [scatterGamma]
    exact ih _ (getD_set_lt (hz pj.2) hg) q

theorem hdLoop_length {I : List Int} :
    ∀ (ps : List Nat) (gamma : List Nat),
      (hdLoop I ps gamma).length = gamma.length := by
  intro ps
  induction ps with
  | nil => intro gamma; rfl
  | cons p rest ih =>
    intro gamma
    rw [hdLoop, ih]
    simp

theorem hdLoop_not_mem {I : List Int} :
    ∀ (ps : List Nat) (gamma : List Nat) (q : Nat),
      (∀ p ∈ ps, p ≠ q) →
      (hdLoop I ps gamma).getD q 0 = gamma.getD q 0 := by
  intro ps
  induction ps with
  | nil => intro gamma q _; rfl
  | cons p rest ih =>
    intro gamma q hq
    rw [hdLoop, ih _ q (fun x hx => hq x (List.mem_cons_of_mem p hx))]
    exact getD_set_ne (hq p (List.mem_cons_self p rest))

theorem hdLoop_getD {I : List Int} :
    ∀ (ps : List Nat) (gamma : List Nat) (p : Nat),
      p ∈ ps → ps.Nodup → p < gamma.length →
      (hdLoop I ps gamma).getD p 0 =
        (Int.emod (I.getD (2 * p) 0 - I.getD (2 * p + 1) 0) 2).toNat := by
  intro ps
  induction ps with
  | nil => intro gamma p hmem _ _; simp at hmem
  | cons p0 rest ih =>
    intro gamma p hmem hnd hp
    rw [List.nodup_cons] at hnd
    rcases List.mem_cons.mp hmem with heq | hmem'
    · subst heq
      have hframe : ∀ x ∈ rest, x ≠ p := by
        intro x hx hx1
        exact hnd.1 (hx1 ▸ hx)
      rw [hdLoop, hdLoop_not_mem _ _ p hframe]
      exact getD_set_self hp
    · rw [hdLoop]
      exact ih _ p hmem' hnd.2 (by simpa using hp)

/-! Vote counts of `code_builder`, specified independently of the
tally fold. -/

/-- Number of pairs voting 1 at bit position `j`. -/
def onesCount (gamma : List Nat) (pjs : List (Nat × Nat)) (j : Nat) : Nat :=
  pjs.countP (fun pj => decide (pj.2 = j ∧ gamma.getD pj.1 0 = 1))

/-- Number of pairs voting 0 at bit position `j`. -/
def zerosCount (gamma : List Nat) (pjs : List (Nat × Nat)) (j : Nat) : Nat :=
  pjs.countP (fun pj => decide (pj.2 = j ∧ ¬ gamma.getD pj.1 0 = 1))

theorem tallyLoop_getD {gamma : List Nat} :
    ∀ (L : List (Nat × Nat)) (ones zeros : List Nat) (j : Nat),
      (∀ pj ∈ L, pj.2 < ones.length) → (∀ pj ∈ L, pj.2 < zeros.length) →
      (tallyLoop gamma L (ones, zeros)).1.getD j 0 =
        ones.getD j 0 + onesCount gamma L j ∧
      (tallyLoop gamma L (ones, zeros)).2.getD j 0 =
        zeros.getD j 0 + zerosCount gamma L j := by
  intro L
  induction L with
  | nil => intro ones zeros j _ _; simp [tallyLoop, onesCount, zerosCount]
  | cons pj rest ih =>
    intro ones zeros j hones hzeros
    have hone : pj.2 < ones.length := hones pj (List.mem_cons_self pj rest)
    have hzero : pj.2 < zeros.length := hzeros pj (List.mem_cons_self pj rest)
    rw [tallyLoop]
    by_cases hv : gamma.getD pj.1 0 = 1
    · have hv' : gamma[pj.1]?.getD 0 = 1 := by simpa using hv
      rw [if_pos hv]
      have hih := ih (ones.set pj.2 (ones.getD pj.2 0 + 1)) zeros j
        (fun x hx => by
          rw [List.length_set]
          exact hones x (List.mem_cons_of_mem pj hx))
        (fun x hx => hzeros x (List.mem_cons_of_mem pj hx))
      refine ⟨?_, ?_⟩
      · rw [hih.1]
        simp only [onesCount, List.countP_cons]
        by_cases hij : pj.2 = j
        · subst hij
          rw [getD_set_self hone]
          simp [hv']
          omega
        · rw [getD_set_ne hij]
          simp [hij]
      · rw [hih.2]
        simp only [zerosCount, List.countP_cons]
        simp [hv']
    · have hv' : ¬ gamma[pj.1]?.getD 0 = 1 := by simpa using hv
      rw [if_neg hv]
      have hih := ih ones (zeros.set pj.2 (zeros.getD pj.2 0 + 1)) j
        (fun x hx => hones x (List.mem_cons_of_mem pj hx))
        (fun x hx => by
          rw [List.length_set]
          exact hzeros x (List.mem_cons_of_mem pj hx))
      refine ⟨?_, ?_⟩
      · rw [hih.1]
        simp only [onesCount, List.countP_cons]
        simp [hv']
      · rw [hih.2]
        simp only [zerosCount, List.countP_cons]
        by_cases hij : pj.2 = j
        · subst hij
          rw [getD_set_self hzero]
          simp [hv']
          omega
        · rw [getD_set_ne hij]
          simp [hij]

theorem voteTallies_getD {gamma : List Nat} {eta : Nat}
    {pjs : List (Nat × Nat)} (hb : ∀ pj ∈ pjs, pj.2 < eta)
    {j : Nat} (hj : j < eta) :
    (voteTallies gamma eta pjs).1.getD j 0 = onesCount gamma pjs j ∧
    (voteTallies gamma eta pjs).2.getD j 0 = zerosCount gamma pjs j := by
  have h := @tallyLoop_getD gamma pjs (List.replicate eta 0)
    (List.replicate eta 0) j
    (fun pj hpj => by simpa using hb pj hpj)
    (fun pj hpj => by simpa using hb pj hpj)
  rw [voteTallies, h.1, h.2, getD_replicate hj]
  omega

end IPA

namespace IPA

theorem codeBit_eq {O : HmacModel} {key : String} {gamma : List Nat}
    {eta : Nat} {pjs : List (Nat × Nat)} (hb : ∀ pj ∈ pjs, pj.2 < eta)
    {j : Nat} (hj : j < eta) :
    codeBit O key gamma eta pjs j =
      if 0 < onesCount gamma pjs j ∧ zerosCount gamma pjs j = 0 then 1
      else if 0 < zerosCount gamma pjs j ∧ onesCount gamma pjs j = 0 then 0
      else keyedBit O key
        (chaosLabel j (onesCount gamma pjs j) (zerosCount gamma pjs j)) := by
  obtain ⟨h1, h2⟩ := voteTallies_getD hb hj
  rw [codeBit, h1, h2]

theorem codeBuilder_ok {O : HmacModel} {key : String} {gamma : List Nat}
    {eta fuel : Nat} {P js : List Nat}
    (hjs : mapE (fun p => keyedIndex O key p eta fuel) P = .ok js) :
    codeBuilder O key gamma eta P fuel =
      .ok ((List.range eta).map (codeBit O key gamma eta (P.zip js))) := by
  rw [codeBuilder]
  simp only [hjs]

/-- C6: in `code_builder`, a bit position with only 1-votes yields 1,
one with only 0-votes yields 0, and every other combination of vote
counts — any mix, not only exact ties — yields the keyed tie-break bit
for the label built from the position and the two vote counts.  The
vote counts here are specified independently of the implementation's
tally fold, as occurrence counts over the permutation paired with its
keyed indices. -/
theorem c6_code_builder_bit_rules (O : HmacModel) (key : String)
    (gamma : List Nat) (eta fuel : Nat) (P js zeta2 : List Nat)
    (hjs : mapE (fun p => keyedIndex O key p eta fuel) P = .ok js)
    (hres : codeBuilder O key gamma eta P fuel = .ok zeta2) :
    ∀ j < eta,
      zeta2.getD j 0 =
        if 0 < onesCount gamma (P.zip js) j ∧ zerosCount gamma (P.zip js) j = 0
          then 1
        else if 0 < zerosCount gamma (P.zip js) j ∧
            onesCount gamma (P.zip js) j = 0 then 0
        else keyedBit O key (chaosLabel j (onesCount gamma (P.zip js) j)
          (zerosCount gamma (P.zip js) j)) := by
  intro j hj
  rw [codeBuilder_ok hjs] at hres
  cases hres
  have hb : ∀ pj ∈ P.zip js, pj.2 < eta := by
    intro pj hpj
    have hmem : pj.2 ∈ js := (List.of_mem_zip hpj).2
    obtain ⟨p, -, hp⟩ := mapE_mem_inv hjs pj.2 hmem
    exact keyedIndex_lt hp
  rw [getD_map_range hj]
  exact codeBit_eq hb hj

/-- Witness for C6 at the zero oracle: one pair, `eta = 1`, an
all-zeros hint vector; position 0 receives a single 0-vote. -/
theorem c6_witness :
    mapE (fun p => keyedIndex zeroHash "k" p 1 1) [0] = .ok [0] ∧
    codeBuilder zeroHash "k" [0] 1 [0] 1 = .ok [0] ∧
    ∀ j < 1,
      ([0] : List Nat).getD j 0 =
        if 0 < onesCount [0] ([0].zip [0]) j ∧
            zerosCount [0] ([0].zip [0]) j = 0 then 1
        else if 0 < zerosCount [0] ([0].zip [0]) j ∧
            onesCount [0] ([0].zip [0]) j = 0 then 0
        else keyedBit zeroHash "k" (chaosLabel j (onesCount [0] ([0].zip [0]) j)
          (zerosCount [0] ([0].zip [0]) j)) :=
  ⟨by rfl, by rfl,
   c6_code_builder_bit_rules zeroHash "k" [0] 1 1 [0] [0] [0] (by rfl) (by rfl)⟩

end IPA

namespace IPA

/-! The embedded pair values, and the embedding/restoration loops. -/

/-- First component written by a successful `embed_bit`. -/
def embX (x y b : Int) : Int := fdiv2 (x + y) + cdiv2 (2 * (x - y) + b)

/-- Second component written by a successful `embed_bit`. -/
def embY (x y b : Int) : Int := fdiv2 (x + y) - fdiv2 (2 * (x - y) + b)

theorem embedBit_ok' {x y b : Int} (h : b = 0 ∨ b = 1) :
    embedBit x y b = .ok ⟨embX x y b, embY x y b⟩ :=
  embedBit_eq_ok x y b h

theorem extract_embXY {x y b : Int} (h : b = 0 ∨ b = 1) :
    extractBitAndRestore (embX x y b) (embY x y b) = (b, (x, y)) :=
  extract_embed x y b h

theorem embXY_hint {x y b : Int} (h : b = 0 ∨ b = 1) :
    Int.emod (embX x y b - embY x y b) 2 = b := by
  rw [embX, embY, embed_diff, emod_eq]
  rcases h with h | h <;> subst h <;> omega

theorem embedLoop_ok {gamma : List Nat} (hb : ∀ v, gamma.getD v 0 < 2) :
    ∀ (ps : List Nat) (I : List Int), ps.Nodup →
      (∀ p ∈ ps, 2 * p + 1 < I.length) →
      ∃ J, embedLoop gamma ps I = .ok J ∧ J.length = I.length ∧
        (∀ p ∈ ps,
          J.getD (2 * p) 0 =
            embX (I.getD (2 * p) 0) (I.getD (2 * p + 1) 0)
              ((gamma.getD p 0 : Nat) : Int) ∧
          J.getD (2 * p + 1) 0 =
            embY (I.getD (2 * p) 0) (I.getD (2 * p + 1) 0)
              ((gamma.getD p 0 : Nat) : Int)) ∧
        (∀ m, (∀ p ∈ ps, m ≠ 2 * p ∧ m ≠ 2 * p + 1) →
          J.getD m 0 = I.getD m 0) := by
  intro ps
  induction ps with
  | nil =>
    intro I _ _
    exact ⟨I, rfl, rfl, by intro p hp; simp at hp, fun m _ => rfl⟩
  | cons p ps ih =>
    intro I hnd hlen
    rw [List.nodup_cons] at hnd
    have hbit : ((gamma.getD p 0 : Nat) : Int) = 0 ∨
        ((gamma.getD p 0 : Nat) : Int) = 1 := by
      have := hb p
      omega
    have hpI : 2 * p + 1 < I.length := hlen p (List.mem_cons_self p ps)
    obtain ⟨J, hJ, hJlen, hJvals, hJframe⟩ :=
      ih ((I.set (2 * p) (embX (I.getD (2 * p) 0) (I.getD (2 * p + 1) 0)
            ((gamma.getD p 0 : Nat) : Int))).set (2 * p + 1)
          (embY (I.getD (2 * p) 0) (I.getD (2 * p + 1) 0)
            ((gamma.getD p 0 : Nat) : Int)))
        hnd.2
        (by
          intro q hq
          simp only [List.length_set]
          exact hlen q (List.mem_cons_of_mem p hq))
    refine ⟨J, ?_, ?_, ?_, ?_⟩
    · rw [embedLoop, embedBit_ok' hbit]
      exact hJ
    · rw [hJlen]
      simp
    · intro q hq
      rcases List.mem_cons.mp hq with heq | hq'
      · subst heq
        have hfr1 : ∀ r ∈ ps, 2 * q ≠ 2 * r ∧ 2 * q ≠ 2 * r + 1 := by
          intro r hr
          refine ⟨fun hc => ?_, by omega⟩
          have : q = r := by omega
          exact hnd.1 (this ▸ hr)
        have hfr2 : ∀ r ∈ ps, 2 * q + 1 ≠ 2 * r ∧ 2 * q + 1 ≠ 2 * r + 1 := by
          intro r hr
          refine ⟨by omega, fun hc => ?_⟩
          have : q = r := by omega
          exact hnd.1 (this ▸ hr)
        constructor
        · rw [hJframe (2 * q) hfr1,
            getD_set_ne (show 2 * q + 1 ≠ 2 * q by omega),
            getD_set_self (by omega)]
        · rw [hJframe (2 * q + 1) hfr2,
            getD_set_self (by simp only [List.length_set]; omega)]
      · have hqp : q ≠ p := fun hc => hnd.1 (hc ▸ hq')
        have h1 : 2 * p + 1 ≠ 2 * q := by omega
        have h2 : 2 * p ≠ 2 * q := by omega
        have h3 : 2 * p + 1 ≠ 2 * q + 1 := by omega
        have h4 : 2 * p ≠ 2 * q + 1 := by omega
        have := hJvals q hq'
        rw [getD_set_ne h1, getD_set_ne h2, getD_set_ne h3,
          getD_set_ne h4] at this
        exact this
    · intro m hm
      have hmp := hm p (List.mem_cons_self p ps)
      rw [hJframe m (fun r hr => hm r (List.mem_cons_of_mem p hr)),
        getD_set_ne (show 2 * p + 1 ≠ m from fun hc => hmp.2 hc.symm),
        getD_set_ne (show 2 * p ≠ m from fun hc => hmp.1 hc.symm)]

theorem restoreLoop_char :
    ∀ (ps : List Nat) (I : List Int), ps.Nodup →
      (∀ p ∈ ps, 2 * p + 1 < I.length) →
      (restoreLoop ps I).length = I.length ∧
      (∀ p ∈ ps,
        (restoreLoop ps I).getD (2 * p) 0 =
          (extractBitAndRestore (I.getD (2 * p) 0) (I.getD (2 * p + 1) 0)).2.1 ∧
        (restoreLoop ps I).getD (2 * p + 1) 0 =
          (extractBitAndRestore (I.getD (2 * p) 0) (I.getD (2 * p + 1) 0)).2.2) ∧
      (∀ m, (∀ p ∈ ps, m ≠ 2 * p ∧ m ≠ 2 * p + 1) →
        (restoreLoop ps I).getD m 0 = I.getD m 0) := by
  intro ps
  induction ps with
  | nil =>
    intro I _ _
    exact ⟨rfl, by intro p hp; simp at hp, fun m _ => rfl⟩
  | cons p ps ih =>
    intro I hnd hlen
    rw [List.nodup_cons] at hnd
    have hpI : 2 * p + 1 < I.length := hlen p (List.mem_cons_self p ps)
    obtain ⟨hJlen, hJvals, hJframe⟩ :=
      ih ((I.set (2 * p)
            (extractBitAndRestore (I.getD (2 * p) 0) (I.getD (2 * p + 1) 0)).2.1).set
          (2 * p + 1)
          (extractBitAndRestore (I.getD (2 * p) 0) (I.getD (2 * p + 1) 0)).2.2)
        hnd.2
        (by
          intro q hq
          simp only [List.length_set]
          exact hlen q (List.mem_cons_of_mem p hq))
    refine ⟨?_, ?_, ?_⟩
    · rw [restoreLoop, hJlen]
      simp
    · intro q hq
      rcases List.mem_cons.mp hq with heq | hq'
      · subst heq
        have hfr1 : ∀ r ∈ ps, 2 * q ≠ 2 * r ∧ 2 * q ≠ 2 * r + 1 := by
          intro r hr
          refine ⟨fun hc => ?_, by omega⟩
          have : q = r := by omega
          exact hnd.1 (this ▸ hr)
        have hfr2 : ∀ r ∈ ps, 2 * q + 1 ≠ 2 * r ∧ 2 * q + 1 ≠ 2 * r + 1 := by
          intro r hr
          refine ⟨by omega, fun hc => ?_⟩
          have : q = r := by omega
          exact hnd.1 (this ▸ hr)
        rw [restoreLoop]
        constructor
        · rw [hJframe (2 * q) hfr1,
            getD_set_ne (show 2 * q + 1 ≠ 2 * q by omega),
            getD_set_self (by omega)]
        · rw [hJframe (2 * q + 1) hfr2,
            getD_set_self (by simp only [List.length_set]; omega)]
      · have hqp : q ≠ p := fun hc => hnd.1 (hc ▸ hq')
        have h1 : 2 * p + 1 ≠ 2 * q := by omega
        have h2 : 2 * p ≠ 2 * q := by omega
        have h3 : 2 * p + 1 ≠ 2 * q + 1 := by omega
        have h4 : 2 * p ≠ 2 * q + 1 := by omega
        have := hJvals q hq'
        rw [getD_set_ne h1, getD_set_ne h2, getD_set_ne h3,
          getD_set_ne h4] at this
        rw [restoreLoop]
        exact this
    · intro m hm
      have hmp := hm p (List.mem_cons_self p ps)
      rw [restoreLoop,
        hJframe m (fun r hr => hm r (List.mem_cons_of_mem p hr)),
        getD_set_ne (show 2 * p + 1 ≠ m from fun hc => hmp.2 hc.symm),
        getD_set_ne (show 2 * p ≠ m from fun hc => hmp.1 hc.symm)]

end IPA

namespace IPA

/-! Helpers towards the round-trip theorem. -/

theorem perm_range_mem {P : List Nat} {n : Nat}
    (h : P.Perm (List.range n)) : ∀ p, p ∈ P ↔ p < n := by
  intro p
  rw [h.mem_iff, List.mem_range]

theorem perm_range_nodup {P : List Nat} {n : Nat}
    (h : P.Perm (List.range n)) : P.Nodup :=
  h.symm.nodup (List.nodup_range n)

theorem getD_lt_two {l : List Nat} (h : ∀ b ∈ l, b < 2) :
    ∀ v, l.getD v 0 < 2 := by
  intro v
  by_cases hv : v < l.length
  · exact h _ (getD_mem_of_lt hv)
  · rw [List.getD_eq_getElem?_getD, List.getElem?_eq_none (by omega)]
    decide

theorem getD_take {l : List Int} {n m : Nat} (h : m < n) :
    (l.take n).getD m 0 = l.getD m 0 := by
  rw [List.getD_eq_getElem?_getD, List.getD_eq_getElem?_getD,
    List.getElem?_take_of_lt h]

theorem embedLoop_length {gamma : List Nat} :
    ∀ (ps : List Nat) (I J : List Int),
      embedLoop gamma ps I = .ok J → J.length = I.length := by
  intro ps
  induction ps with
  | nil => intro I J h; cases h; rfl
  | cons p rest ih =>
    intro I J h
    rw [embedLoop] at h
    split at h
    · cases h
    · have := ih _ _ h
      rw [this]
      simp

theorem embedLoop_frame {gamma : List Nat} :
    ∀ (ps : List Nat) (I J : List Int) (m : Nat),
      embedLoop gamma ps I = .ok J →
      (∀ p ∈ ps, m ≠ 2 * p ∧ m ≠ 2 * p + 1) →
      J.getD m 0 = I.getD m 0 := by
  intro ps
  induction ps with
  | nil => intro I J m h _; cases h; rfl
  | cons p rest ih =>
    intro I J m h hm
    rw [embedLoop] at h
    split at h
    · cases h
    · have hmp := hm p (List.mem_cons_self p rest)
      rw [ih _ _ m h (fun r hr => hm r (List.mem_cons_of_mem p hr)),
        getD_set_ne (show 2 * p + 1 ≠ m from fun hc => hmp.2 hc.symm),
        getD_set_ne (show 2 * p ≠ m from fun hc => hmp.1 hc.symm)]

theorem restoreLoop_frame :
    ∀ (ps : List Nat) (I : List Int) (m : Nat),
      (∀ p ∈ ps, m ≠ 2 * p ∧ m ≠ 2 * p + 1) →
      (restoreLoop ps I).getD m 0 = I.getD m 0 := by
  intro ps
  induction ps with
  | nil => intro I m _; rfl
  | cons p rest ih =>
    intro I m hm
    have hmp := hm p (List.mem_cons_self p rest)
    rw [restoreLoop,
      ih _ m (fun r hr => hm r (List.mem_cons_of_mem p hr)),
      getD_set_ne (show 2 * p + 1 ≠ m from fun hc => hmp.2 hc.symm),
      getD_set_ne (show 2 * p ≠ m from fun hc => hmp.1 hc.symm)]

theorem computePermutation_congr {O : HmacModel} {key : String}
    {eta fuel : Nat} {a b : Nat} (hhalf : a / 2 = b / 2)
    (h2 : a < 2 ↔ b < 2) :
    computePermutation O key a eta fuel =
      computePermutation O key b eta fuel := by
  rw [computePermutation, computePermutation, hhalf]
  by_cases ha : a < 2
  · rw [if_pos ha, if_pos (h2.mp ha)]
  · rw [if_neg ha, if_neg (fun hb => ha (h2.mpr hb))]

theorem hdLoop_take {I : List Int} {n : Nat} :
    ∀ (ps : List Nat) (gamma : List Nat),
      (∀ p ∈ ps, 2 * p + 1 < n) →
      hdLoop (I.take n) ps gamma = hdLoop I ps gamma := by
  intro ps
  induction ps with
  | nil => intro gamma _; rfl
  | cons p rest ih =>
    intro gamma hb
    have hp := hb p (List.mem_cons_self p rest)
    rw [hdLoop, hdLoop, getD_take (by omega), getD_take (by omega)]
    exact ih _ (fun r hr => hb r (List.mem_cons_of_mem p hr))

theorem prepareParameters_ok_inv {O : HmacModel} {key : String}
    {params : List Int} {zeta : Int} {eta fuel : Nat} {R : PreparedInput}
    (h : prepareParameters O key params zeta eta fuel = .ok R) :
    0 ≤ zeta ∧ ∃ P zeta2 js J,
      computePermutation O key params.length eta fuel = .ok P ∧
      bitsFromInt zeta.toNat eta = .ok zeta2 ∧
      mapE (fun p => keyedIndex O key p eta fuel) P = .ok js ∧
      embedLoop (scatterGamma zeta2 (P.zip js)
        (List.replicate (params.length / 2) 0)) P params = .ok J ∧
      R = ⟨J, P, eta⟩ := by
  rw [prepareParameters] at h
  split at h
  · cases h
  · rename_i hz
    cases hcp : computePermutation O key params.length eta fuel with
    | error e => simp only [hcp] at h; cases h
    | ok P =>
      simp only [hcp] at h
      cases hbits : bitsFromInt zeta.toNat eta with
      | error e => simp only [hbits] at h; cases h
      | ok zeta2 =>
        simp only [hbits] at h
        cases hjs : mapE (fun p => keyedIndex O key p eta fuel) P with
        | error e => simp only [hjs] at h; cases h
        | ok js =>
          simp only [hjs] at h
          cases hemb : embedLoop (scatterGamma zeta2 (P.zip js)
              (List.replicate (params.length / 2) 0)) P params with
          | error e => simp only [hemb] at h; cases h
          | ok J =>
            simp only [hemb] at h
            cases h
            exact ⟨by omega, P, zeta2, js, J, rfl, rfl, hjs, hemb, rfl⟩

end IPA

namespace IPA

/-- C7: whenever `prepare_parameters` succeeds, the watermarked list
has exactly the input's length, and every constraint holds — `zeta` is
non-negative and fits in `eta` bits, there are at least 2 parameters,
at least `eta` pairs, and the keyed indices cover at least `eta`
distinct positions.  Contrapositively, a violated constraint means the
call cannot return a list and fails with an error instead. -/
theorem c7_prepare_length_and_constraints (O : HmacModel) (key : String)
    (params : List Int) (zeta : Int) (eta fuel : Nat) (R : PreparedInput)
    (h : prepareParameters O key params zeta eta fuel = .ok R) :
    R.watermarked_params.length = params.length ∧
    0 ≤ zeta ∧ 2 ≤ params.length ∧ eta ≤ params.length / 2 ∧
    zeta.toNat < 2 ^ eta ∧
    ∃ P js,
      keyedPermutation O (prngSeed O key) (params.length / 2) fuel = some P ∧
      mapE (fun p => keyedIndex O key p eta fuel) P = .ok js ∧
      eta ≤ js.dedup.length := by
  obtain ⟨hz, P, zeta2, js, J, hcp, hbits, hjs, hemb, rfl⟩ :=
    prepareParameters_ok_inv h
  obtain ⟨h2, he, hkp, js', hjs', hcov⟩ := computePermutation_ok_inv hcp
  rw [hjs] at hjs'
  cases hjs'
  obtain ⟨-, hlt, -⟩ := bitsFromInt_ok_inv hbits
  exact ⟨embedLoop_length P params J hemb, hz, h2, he, hlt,
    P, js, hkp, hjs, hcov⟩

/-- Witness for C7 at the zero oracle. -/
theorem c7_witness :
    prepareParameters zeroHash "k" [5, 3] 1 1 1 = .ok ⟨[7, 2], [0], 1⟩ ∧
    (([7, 2] : List Int).length = ([5, 3] : List Int).length ∧
      (0 : Int) ≤ 1 ∧ 2 ≤ ([5, 3] : List Int).length ∧
      1 ≤ ([5, 3] : List Int).length / 2 ∧ (1 : Int).toNat < 2 ^ 1 ∧
      ∃ P js,
        keyedPermutation zeroHash (prngSeed zeroHash "k")
          (([5, 3] : List Int).length / 2) 1 = some P ∧
        mapE (fun p => keyedIndex zeroHash "k" p 1 1) P = .ok js ∧
        1 ≤ js.dedup.length) :=
  ⟨by rfl,
   c7_prepare_length_and_constraints zeroHash "k" [5, 3] 1 1 1
     ⟨[7, 2], [0], 1⟩ (by rfl)⟩

end IPA

namespace IPA

/-- C9: odd-length parameter lists are accepted, and all encoder
operations read and write only positions `0` through
`2 * (len / 2) - 1`.  Concretely: (a) `build_watermark_graph` gives
the same result on a list and on its truncation to the first
`2 * (len / 2)` elements, so it never reads a trailing odd element;
(b) every position at or beyond `2 * (len / 2)` — in particular the
final element of an odd-length list — is returned unchanged by
`prepare_parameters`; and (c) likewise by `restore_params_from_pairs`
for any permutation of valid pair indices, such as the returned one. -/
theorem c9_odd_length_tail_untouched :
    (∀ (O : HmacModel) (key : String) (I : List Int) (eta fuel : Nat),
      buildWatermarkGraph O key I eta fuel =
        buildWatermarkGraph O key (I.take (2 * (I.length / 2))) eta fuel) ∧
    (∀ (O : HmacModel) (key : String) (params : List Int) (zeta : Int)
        (eta fuel : Nat) (R : PreparedInput),
      prepareParameters O key params zeta eta fuel = .ok R →
      ∀ m, 2 * (params.length / 2) ≤ m →
        R.watermarked_params.getD m 0 = params.getD m 0) ∧
    (∀ (I : List Int) (P : List Nat),
      (∀ p ∈ P, p < I.length / 2) →
      ∀ m, 2 * (I.length / 2) ≤ m →
        (restoreParamsFromPairs I P).getD m 0 = I.getD m 0) := by
  refine ⟨?_, ?_, ?_⟩
  · intro O key I eta fuel
    have hlen' : (I.take (2 * (I.length / 2))).length = 2 * (I.length / 2) := by
      rw [List.length_take]
      exact Nat.min_eq_left (by omega)
    have hcongr : computePermutation O key
        (I.take (2 * (I.length / 2))).length eta fuel =
        computePermutation O key I.length eta fuel := by
      rw [hlen']
      exact computePermutation_congr (by omega) (by omega)
    rw [buildWatermarkGraph, buildWatermarkGraph, hcongr]
    cases hcp : computePermutation O key I.length eta fuel with
    | error e => rfl
    | ok P =>
      obtain ⟨-, -, hkp, -⟩ := computePermutation_ok_inv hcp
      have hPlt : ∀ p ∈ P, p < I.length / 2 := by
        intro p hp
        exact (perm_range_mem (keyedPermutation_perm hkp) p).mp hp
      have hhd : hintsDetection (I.take (2 * (I.length / 2))) P =
          hintsDetection I P := by
        rw [hintsDetection, hintsDetection, hlen']
        have h24 : 2 * (I.length / 2) / 2 = I.length / 2 := by omega
        rw [h24]
        exact hdLoop_take P _ (fun p hp => by have := hPlt p hp; omega)
      simp only [hhd]
  · intro O key params zeta eta fuel R h m hm
    obtain ⟨-, P, zeta2, js, J, hcp, -, -, hemb, rfl⟩ :=
      prepareParameters_ok_inv h
    obtain ⟨-, -, hkp, -⟩ := computePermutation_ok_inv hcp
    refine embedLoop_frame P params J m hemb ?_
    intro p hp
    have := (perm_range_mem (keyedPermutation_perm hkp) p).mp hp
    omega
  · intro I P hP m hm
    refine restoreLoop_frame P I m ?_
    intro p hp
    have := hP p hp
    omega

/-- Witness for C9 on the odd-length list `[5, 3, 9]`: the build is
blind to the trailing element, and prepare/restore leave it alone. -/
theorem c9_witness :
    buildWatermarkGraph zeroHash "k" [5, 3, 9] 1 1 =
      buildWatermarkGraph zeroHash "k"
        (([5, 3, 9] : List Int).take
          (2 * (([5, 3, 9] : List Int).length / 2))) 1 1 ∧
    (∀ m, 2 * (([5, 3, 9] : List Int).length / 2) ≤ m →
      (⟨[7, 2, 9], [0], 1⟩ : PreparedInput).watermarked_params.getD m 0 =
        ([5, 3, 9] : List Int).getD m 0) ∧
    (∀ m, 2 * (([7, 2, 9] : List Int).length / 2) ≤ m →
      (restoreParamsFromPairs [7, 2, 9] [0]).getD m 0 =
        ([7, 2, 9] : List Int).getD m 0) :=
  ⟨c9_odd_length_tail_untouched.1 zeroHash "k" [5, 3, 9] 1 1,
   fun m hm => c9_odd_length_tail_untouched.2.1 zeroHash "k" [5, 3, 9] 1 1 1
     ⟨[7, 2, 9], [0], 1⟩ (by rfl) m hm,
   fun m hm => c9_odd_length_tail_untouched.2.2 [7, 2, 9] [0]
     (by decide) m hm⟩

end IPA

namespace IPA

theorem mem_zip_left {l1 l2 : List Nat} (hlen : l2.length = l1.length)
    {x : Nat} (hx : x ∈ l1) : ∃ y, (x, y) ∈ l1.zip l2 := by
  obtain ⟨i, hilt, hix⟩ := List.mem_iff_getElem.mp hx
  have hi2 : i < l2.length := by omega
  refine ⟨l2.get ⟨i, hi2⟩, ?_⟩
  rw [List.mem_iff_getElem?]
  refine ⟨i, ?_⟩
  rw [List.getElem?_zip_eq_some]
  constructor
  · rw [List.getElem?_eq_getElem hilt, hix]
  · rw [List.getElem?_eq_getElem hi2]
    rfl

theorem mem_zip_right {l1 l2 : List Nat} (hlen : l2.length = l1.length)
    {y : Nat} (hy : y ∈ l2) : ∃ x, (x, y) ∈ l1.zip l2 := by
  obtain ⟨i, hilt, hiy⟩ := List.mem_iff_getElem.mp hy
  have hi1 : i < l1.length := by omega
  refine ⟨l1.get ⟨i, hi1⟩, ?_⟩
  rw [List.mem_iff_getElem?]
  refine ⟨i, ?_⟩
  rw [List.getElem?_zip_eq_some]
  constructor
  · rw [List.getElem?_eq_getElem hi1]
    rfl
  · rw [List.getElem?_eq_getElem hilt, hiy]

end IPA

namespace IPA

/-- C1 (amended): for every oracle/key, `eta`, `zeta` and parameter
list on which `prepare_parameters` succeeds (which entails `eta > 0`,
`zeta ∈ [0, 2^eta)`, enough pairs and full keyed-index coverage),
(a) `restore_params_from_pairs` with the returned permutation recovers
the original list exactly, and (b) building the graph from the
watermarked list and verifying it against `zeta` is authentic with the
recovered code equal to `zeta` — provided additionally (the amendment)
that every base-6 digit of `zeta` is at most the number of its base-6
digits, since the graph decoder reads a digit `d` back as
`((d - 1) mod mu) + 1`.  Without the amendment part (b) fails, see the
counterexample. -/
theorem c1_round_trip (O : HmacModel) (key : String) (params : List Int)
    (zeta : Int) (eta fuel : Nat) (R : PreparedInput)
    (hprep : prepareParameters O key params zeta eta fuel = .ok R)
    (hdig : ∀ v ∈ digitsBE zeta.toNat 6, v ≤ (digitsBE zeta.toNat 6).length) :
    restoreParamsFromPairs R.watermarked_params R.permutation = params ∧
    ∃ (B : AuthenticationBuild) (res : VerificationResult),
      buildWatermarkGraph O key R.watermarked_params eta fuel = .ok B ∧
      controllerVerify B.graph B.graph_head zeta = .ok res ∧
      res.is_authentic = true ∧ res.recovered_zeta = some zeta.toNat := by
  obtain ⟨hz, P, zeta2, js, J, hcp, hbits, hjs, hemb, rfl⟩ :=
    prepareParameters_ok_inv hprep
  obtain ⟨h2, he, hkp, js0, hjs0, hcov⟩ := computePermutation_ok_inv hcp
  rw [hjs] at hjs0
  cases hjs0
  have hperm := keyedPermutation_perm hkp
  have hmemP := perm_range_mem hperm
  have hndP := perm_range_nodup hperm
  obtain ⟨heta1, hzlt, -⟩ := bitsFromInt_ok_inv hbits
  have hlen2 : zeta2.length = eta := bitsFromInt_length hbits
  have hbits2 : ∀ b ∈ zeta2, b < 2 := bitsFromInt_bits_lt hbits
  have hval : digitsToInt zeta2 2 = .ok zeta.toNat := bitsFromInt_value hbits
  have hjslen : js.length = P.length := mapE_length hjs
  have hjlt : ∀ pj ∈ P.zip js, pj.2 < eta := by
    intro pj hpj
    obtain ⟨p, -, hp⟩ := mapE_mem_inv hjs pj.2 (List.of_mem_zip hpj).2
    exact keyedIndex_lt hp
  have hjall : ∀ x ∈ js, x < eta := by
    intro x hx
    obtain ⟨p, -, hp⟩ := mapE_mem_inv hjs x hx
    exact keyedIndex_lt hp
  have hgb : ∀ v, (scatterGamma zeta2 (P.zip js)
      (List.replicate (params.length / 2) 0)).getD v 0 < 2 :=
    scatterGamma_lt (getD_lt_two hbits2) _ _
      (getD_lt_two (fun b hb => by rw [List.eq_of_mem_replicate hb]; decide))
  have hfst : (P.zip js).map Prod.fst = P :=
    List.map_fst_zip P js (by omega)
  have hgamma : ∀ pj ∈ P.zip js,
      (scatterGamma zeta2 (P.zip js)
        (List.replicate (params.length / 2) 0)).getD pj.1 0 =
      zeta2.getD pj.2 0 := by
    intro pj hpj
    have hp1 : pj.1 ∈ P := (List.of_mem_zip hpj).1
    refine scatterGamma_getD (P.zip js) _ pj.1 pj.2 ?_ ?_ ?_
    · simpa using hpj
    · rw [hfst]
      exact hndP
    · rw [List.length_replicate]
      exact (hmemP pj.1).mp hp1
  have hbounds : ∀ p ∈ P, 2 * p + 1 < params.length := by
    intro p hp
    have := (hmemP p).mp hp
    omega
  obtain ⟨J0, hJ0eq, hJlen, hJvals, hJframe⟩ :=
    embedLoop_ok hgb P params hndP hbounds
  rw [hemb] at hJ0eq
  cases hJ0eq
  obtain ⟨hRlen, hRvals, hRframe⟩ := restoreLoop_char P J hndP
    (by intro p hp; rw [hJlen]; exact hbounds p hp)
  constructor
  · -- (a) restoration
    show restoreParamsFromPairs J P = params
    rw [restoreParamsFromPairs]
    refine @list_eq_of_getD Int 0 _ _ (by rw [hRlen, hJlen]) ?_
    intro m
    by_cases hmlen : m < params.length
    · by_cases hmp : m < 2 * (params.length / 2)
      · have hp : m / 2 ∈ P := (hmemP (m / 2)).mpr (by omega)
        have hASDF := hJvals (m / 2) hp
        have hx := hRvals (m / 2) hp
        have hb01 : (((scatterGamma zeta2 (P.zip js)
            (List.replicate (params.length / 2) 0)).getD (m / 2) 0 : Nat) : Int)
            = 0 ∨
            (((scatterGamma zeta2 (P.zip js)
            (List.replicate (params.length / 2) 0)).getD (m / 2) 0 : Nat) : Int)
            = 1 := by
          have := hgb (m / 2)
          omega
        have hext := extract_embXY (x := params.getD (2 * (m / 2)) 0)
          (y := params.getD (2 * (m / 2) + 1) 0) hb01
        rw [hASDF.1, hASDF.2, hext] at hx
        rcases (by omega : m = 2 * (m / 2) ∨ m = 2 * (m / 2) + 1) with hm2 | hm2
        · rw [hm2]
          simpa using hx.1
        · rw [hm2]
          simpa using hx.2
      · have hfr : ∀ p ∈ P, m ≠ 2 * p ∧ m ≠ 2 * p + 1 := by
          intro p hp
          have := (hmemP p).mp hp
          omega
        rw [hRframe m hfr, hJframe m hfr]
    · rw [List.getD_eq_getElem?_getD, List.getD_eq_getElem?_getD,
        List.getElem?_eq_none (by rw [hRlen, hJlen]; omega),
        List.getElem?_eq_none (by omega)]
  · -- (b) build and verify
    have hcp2 : computePermutation O key J.length eta fuel = .ok P := by
      rw [hJlen]
      exact hcp
    have hgd : ∀ pj ∈ P.zip js,
        (hintsDetection J P).getD pj.1 0 = zeta2.getD pj.2 0 := by
      intro pj hpj
      have hp1 : pj.1 ∈ P := (List.of_mem_zip hpj).1
      rw [hintsDetection,
        hdLoop_getD P _ pj.1 hp1 hndP
          (by
            rw [List.length_replicate, hJlen]
            exact (hmemP pj.1).mp hp1)]
      have hv := hJvals pj.1 hp1
      rw [hv.1, hv.2]
      have hb01 : (((scatterGamma zeta2 (P.zip js)
          (List.replicate (params.length / 2) 0)).getD pj.1 0 : Nat) : Int)
          = 0 ∨
          (((scatterGamma zeta2 (P.zip js)
          (List.replicate (params.length / 2) 0)).getD pj.1 0 : Nat) : Int)
          = 1 := by
        have := hgb pj.1
        omega
      rw [embXY_hint hb01, Int.toNat_ofNat, hgamma pj hpj]
    have hzhat : (List.range eta).map
        (codeBit O key (hintsDetection J P) eta (P.zip js)) = zeta2 := by
      refine @list_eq_of_getD Nat 0 _ _ (by simp [hlen2]) ?_
      intro m
      by_cases hm : m < eta
      · rw [getD_map_range hm, codeBit_eq hjlt hm]
        have hz2cases : zeta2.getD m 0 = 0 ∨ zeta2.getD m 0 = 1 := by
          have := getD_lt_two hbits2 m
          omega
        have hmjs : m ∈ js := coverage_full hjall hcov m hm
        obtain ⟨px, hpx⟩ := mem_zip_right hjslen hmjs
        rcases hz2cases with hz2 | hz2
        · have hone0 : onesCount (hintsDetection J P) (P.zip js) m = 0 := by
            rw [onesCount, List.countP_eq_zero]
            intro pj hpj
            simp only [decide_eq_true_eq, not_and]
            intro hj hbit
            have hgdpj := hgd pj hpj
            rw [hj, hz2] at hgdpj
            omega
          have hzer : 0 < zerosCount (hintsDetection J P) (P.zip js) m := by
            rw [zerosCount, List.countP_pos_iff]
            refine ⟨(px, m), hpx, ?_⟩
            simp only [decide_eq_true_eq]
            refine ⟨by trivial, ?_⟩
            have hgdpx := hgd (px, m) hpx
            rw [hgdpx, hz2]
            omega
          rw [if_neg (by omega), if_pos ⟨hzer, hone0⟩, hz2]
        · have hzer0 : zerosCount (hintsDetection J P) (P.zip js) m = 0 := by
            rw [zerosCount, List.countP_eq_zero]
            intro pj hpj
            simp only [decide_eq_true_eq, not_and]
            intro hj hbit
            have hgdpj := hgd pj hpj
            rw [hj, hz2] at hgdpj
            omega
          have hone : 0 < onesCount (hintsDetection J P) (P.zip js) m := by
            rw [onesCount, List.countP_pos_iff]
            refine ⟨(px, m), hpx, ?_⟩
            simp only [decide_eq_true_eq]
            refine ⟨by trivial, ?_⟩
            have hgdpx := hgd (px, m) hpx
            rw [hgdpx, hz2]
          rw [if_pos ⟨hone, hzer0⟩, hz2]
      · rw [List.getD_eq_getElem?_getD, List.getD_eq_getElem?_getD,
          List.getElem?_eq_none (by simp; omega),
          List.getElem?_eq_none (by rw [hlen2]; omega)]
    have hcb : codeBuilder O key (hintsDetection J P) eta P fuel =
        .ok zeta2 := by
      rw [codeBuilder_ok hjs, hzhat]
    have hbc : baseConvertDigits zeta2 2 6 = .ok (digitsBE zeta.toNat 6) := by
      rw [baseConvertDigits]
      simp only [hval]
      rw [intToDigits]
      rfl
    have hne6 : digitsBE zeta.toNat 6 ≠ [] := digitsBE_ne_nil _ _ (by omega)
    obtain ⟨henc, hdec⟩ := decode_encode hne6 hdig
    refine ⟨⟨encGraph (digitsBE zeta.toNat 6), 0, P, eta⟩,
      ⟨decide (((zeta.toNat : Nat) : Int) = zeta), some zeta.toNat,
        some (digitsBE zeta.toNat 6), none⟩, ?_, ?_, ?_, ?_⟩
    · show buildWatermarkGraph O key J eta fuel = _
      rw [buildWatermarkGraph]
      simp only [hcp2, hcb, hbc, henc]
    · show controllerVerify (encGraph (digitsBE zeta.toNat 6)) 0 zeta = _
      rw [controllerVerify, if_neg (by omega)]
      have h6 : intToDigits zeta.toNat 6 = .ok (digitsBE zeta.toNat 6) := by
        rw [intToDigits]
        rfl
      simp only [h6]
      have htry : tryDecode (encGraph (digitsBE zeta.toNat 6)) 0
          (digitsBE zeta.toNat 6).length =
          .ok (digitsBE zeta.toNat 6, zeta.toNat) := by
        rw [tryDecode]
        simp only [hdec]
        rw [digitsToInt_digitsBE (by omega)]
      simp only [htry]
    · show decide (((zeta.toNat : Nat) : Int) = zeta) = true
      rw [decide_eq_true_eq]
      exact Int.toNat_of_nonneg hz
    · rfl

end IPA

namespace IPA

/-- Witness for C1 at the zero oracle: two parameters, `eta = 1`,
`zeta = 1` (whose single base-6 digit 1 satisfies the amendment). -/
theorem c1_witness :
    prepareParameters zeroHash "k" [5, 3] 1 1 1 = .ok ⟨[7, 2], [0], 1⟩ ∧
    (∀ v ∈ digitsBE (1 : Int).toNat 6, v ≤ (digitsBE (1 : Int).toNat 6).length) ∧
    (restoreParamsFromPairs
        (⟨[7, 2], [0], 1⟩ : PreparedInput).watermarked_params
        (⟨[7, 2], [0], 1⟩ : PreparedInput).permutation = [5, 3] ∧
      ∃ (B : AuthenticationBuild) (res : VerificationResult),
        buildWatermarkGraph zeroHash "k"
          (⟨[7, 2], [0], 1⟩ : PreparedInput).watermarked_params 1 1 = .ok B ∧
        controllerVerify B.graph B.graph_head 1 = .ok res ∧
        res.is_authentic = true ∧ res.recovered_zeta = some (1 : Int).toNat) :=
  ⟨by rfl, by decide,
   c1_round_trip zeroHash "k" [5, 3] 1 1 1 ⟨[7, 2], [0], 1⟩ (by rfl) (by decide)⟩

/-- Counterexample to C1 as stated: with an oracle that sums message
character codes, `key = "k"`, `eta = 2`, `zeta = 2 ∈ [0, 2^2)` and the
four parameters `[5, 3, 9, 4]` (which satisfy the coverage check),
`prepare` succeeds, yet building and verifying the watermarked list
yields `is_authentic = false` with recovered code 1, because `zeta = 2`
has the single base-6 digit 2, which the one-node graph decodes back
as 1. -/
theorem c1_counterexample :
    prepareParameters charSumHash "k" [5, 3, 9, 4] 2 2 1 =
      .ok ⟨[6, 2, 12, 1], [0, 1], 2⟩ ∧
    buildWatermarkGraph charSumHash "k" [6, 2, 12, 1] 2 1 =
      .ok ⟨[⟨some 0, some 0⟩], 0, [0, 1], 2⟩ ∧
    controllerVerify [⟨some 0, some 0⟩] 0 2 =
      .ok ⟨false, some 1, some [1], none⟩ ∧
    (false : Bool) ≠ true :=
  ⟨by rfl, by rfl, by rfl, by decide⟩

end IPA
